import Mathlib

/-!
# Verification of the LGDL per-turn runtime

A shallow embedding, in Lean 4, of the core per-turn components of the LGDL
dialogue runtime (Python sources under `src/lgdl/`), together with theorems
settling the behavioural claims about:

* the negotiation (clarification) loop, `lgdl/runtime/negotiation.py`;
* the conversation-state manager and its TTL cache, `lgdl/runtime/state.py`;
* slot validation, `lgdl/runtime/slots.py`;
* the cascade matcher, `lgdl/runtime/matcher.py`;
* the engine's awaiting-slot routing, `lgdl/runtime/engine.py`;
* matcher construction and the LLM client factory, `lgdl/runtime/matcher.py`
  and `lgdl/runtime/llm_client.py`.

Floats are modelled as `ℚ` (the Python code only compares and adds confidence
scores; no float-rounding behaviour is relied on by any claim).  External
effects — the compiled regexes, embedding vectors, LLM completions and the
user-response callback — are modelled as explicit oracle parameters, so every
theorem quantifies over all possible behaviours of those collaborators.
-/

namespace LGDL

/-! ## Negotiation loop (`lgdl/runtime/negotiation.py`, `NegotiationLoop`)

`clarify_until_confident` runs up to `max_rounds` clarification rounds.  Per
round it asks the user, merges the answer into the params, re-matches the
enriched input and then checks its stop conditions.  The only data the stop
logic consumes from the collaborators is the re-match score of each round, so
the matcher/ask-user pair is modelled as the oracle `newScore : ℕ → ℚ`
(the score the re-match returns after round `k`).  The clarify-action lookup
is assumed to succeed (otherwise the Python raises `E200` before any round
completes and no `NegotiationResult` exists). -/

/-- One `NegotiationRound` record (question/response/params omitted: no claim
mentions them; the stop logic reads only the two confidences). -/
structure NegRound where
  roundNum : ℕ
  confidenceBefore : ℚ
  confidenceAfter : ℚ
  deriving Repr, DecidableEq

/-- The `NegotiationResult` dataclass. -/
structure NegResult where
  success : Bool
  rounds : List NegRound
  finalConfidence : ℚ
  reason : String
  deriving Repr, DecidableEq

/-- Parameters of `NegotiationLoop` plus the move's threshold. -/
structure NegParams where
  maxRounds : ℕ
  epsilon : ℚ
  threshold : ℚ

/-- The body of `NegotiationLoop.clarify_until_confident`'s `for` loop,
translated with explicit fuel (`fuel = max_rounds - (round_num - 1)`),
carrying the running confidence, the `no_gain_count` counter, and the
accumulated `rounds` list (reversed).  Mirrors `negotiation.py` lines
208-300: the round is recorded, then stop condition 1 (threshold), then the
delta cases updating `no_gain_count`, and on loop exhaustion the
`max_rounds_exceeded` result. -/
def clarifyAux (newScore : ℕ → ℚ) (p : NegParams) :
    ℕ → ℕ → ℚ → ℕ → List NegRound → NegResult
  | 0, _, conf, _, acc =>
    { success := false, rounds := acc.reverse, finalConfidence := conf,
      reason := "max_rounds_exceeded" }
  | fuel + 1, roundNum, conf, noGain, acc =>
    let confidenceBefore := conf
    let confidenceAfter := newScore roundNum
    let acc' : List NegRound :=
      { roundNum := roundNum, confidenceBefore := confidenceBefore,
        confidenceAfter := confidenceAfter } :: acc
    if p.threshold ≤ confidenceAfter then
      { success := true, rounds := acc'.reverse, finalConfidence := confidenceAfter,
        reason := "threshold_met" }
    else
      let delta := confidenceAfter - confidenceBefore
      if delta < 0 then
        clarifyAux newScore p fuel (roundNum + 1) confidenceAfter 0 acc'
      else if delta < p.epsilon then
        if 2 ≤ noGain + 1 then
          { success := false, rounds := acc'.reverse, finalConfidence := confidenceAfter,
            reason := "no_information_gain" }
        else
          clarifyAux newScore p fuel (roundNum + 1) confidenceAfter (noGain + 1) acc'
      else
        clarifyAux newScore p fuel (roundNum + 1) confidenceAfter 0 acc'

/-- `NegotiationLoop.clarify_until_confident`: starts at round 1 with the
initial match's score and `no_gain_count = 0`. -/
def clarifyUntilConfident (newScore : ℕ → ℚ) (p : NegParams) (initialScore : ℚ) :
    NegResult :=
  clarifyAux newScore p p.maxRounds 1 initialScore 0 []

/-- A round is "stagnating": its score stayed below the threshold and its
delta was in `[0, ε)` — the rounds that increment `no_gain_count`. -/
def Stagnant (p : NegParams) (r : NegRound) : Prop :=
  r.confidenceAfter < p.threshold ∧
    0 ≤ r.confidenceAfter - r.confidenceBefore ∧
    r.confidenceAfter - r.confidenceBefore < p.epsilon

/-- Loop invariant for the `no_gain_count` counter: it never exceeds 1 while
the loop keeps running, and when it is 1 the most recently recorded round was
a stagnating one. -/
def NoGainInv (p : NegParams) (noGain : ℕ) (acc : List NegRound) : Prop :=
  noGain ≤ 1 ∧ (noGain = 1 → ∃ h t, acc = h :: t ∧ Stagnant p h)

theorem clarifyAux_spec (newScore : ℕ → ℚ) (p : NegParams) :
    ∀ (fuel roundNum : ℕ) (conf : ℚ) (noGain : ℕ) (acc : List NegRound),
      NoGainInv p noGain acc →
      ∃ extra : List NegRound,
        (clarifyAux newScore p fuel roundNum conf noGain acc).rounds
            = acc.reverse ++ extra ∧
        extra.length ≤ fuel ∧
        extra.map (·.roundNum) = List.range' roundNum extra.length ∧
        ((clarifyAux newScore p fuel roundNum conf noGain acc).reason = "threshold_met" ∨
         (clarifyAux newScore p fuel roundNum conf noGain acc).reason = "no_information_gain" ∨
         (clarifyAux newScore p fuel roundNum conf noGain acc).reason = "max_rounds_exceeded") ∧
        ((clarifyAux newScore p fuel roundNum conf noGain acc).success = true ↔
         (clarifyAux newScore p fuel roundNum conf noGain acc).reason = "threshold_met") ∧
        ((clarifyAux newScore p fuel roundNum conf noGain acc).reason = "max_rounds_exceeded" →
          extra.length = fuel ∧ ∀ x ∈ extra, x.confidenceAfter < p.threshold) ∧
        ((clarifyAux newScore p fuel roundNum conf noGain acc).reason = "threshold_met" →
          ∃ pre last, extra = pre ++ [last] ∧ p.threshold ≤ last.confidenceAfter ∧
            ∀ x ∈ pre, x.confidenceAfter < p.threshold) ∧
        ((clarifyAux newScore p fuel roundNum conf noGain acc).reason = "no_information_gain" →
          ∃ pre a b, (clarifyAux newScore p fuel roundNum conf noGain acc).rounds
              = pre ++ [a, b] ∧ Stagnant p a ∧ Stagnant p b) := by
  intro fuel
  induction fuel with
  | zero =>
    intro roundNum conf noGain acc _
    refine ⟨[], by simp [clarifyAux], by simp, by simp [List.range'], ?_, ?_, ?_, ?_, ?_⟩
    · simp [clarifyAux]
    · simp [clarifyAux]
    · simp [clarifyAux]
    · simp [clarifyAux]
    · simp [clarifyAux]
  | succ fuel ih =>
    intro roundNum conf noGain acc hinv
    by_cases hthr : p.threshold ≤ newScore roundNum
    · -- stop condition 1: threshold met on this round
      refine ⟨[⟨roundNum, conf, newScore roundNum⟩], ?_, by simp, ?_, ?_, ?_, ?_, ?_, ?_⟩
      · simp [clarifyAux, hthr]
      · simp [List.range']
      · simp [clarifyAux, hthr]
      · simp [clarifyAux, hthr]
      · simp [clarifyAux, hthr]
      · intro _
        exact ⟨[], ⟨roundNum, conf, newScore roundNum⟩, by simp, hthr, by simp⟩
      · simp [clarifyAux, hthr]
    · by_cases hneg : newScore roundNum - conf < 0
      · -- harmful info: reset the counter and continue
        obtain ⟨extra, hr, hlen, hnums, hreas, hsucc, hmax, hthm, hnoinf⟩ :=
          ih (roundNum + 1) (newScore roundNum) 0
            (⟨roundNum, conf, newScore roundNum⟩ :: acc) ⟨by omega, by simp⟩
        have heq : clarifyAux newScore p (fuel + 1) roundNum conf noGain acc
            = clarifyAux newScore p fuel (roundNum + 1) (newScore roundNum) 0
                (⟨roundNum, conf, newScore roundNum⟩ :: acc) := by
          simp [clarifyAux, hthr, hneg]
        rw [heq]
        refine ⟨⟨roundNum, conf, newScore roundNum⟩ :: extra, ?_, by simpa using hlen,
          ?_, hreas, hsucc, ?_, ?_, hnoinf⟩
        · simpa using hr
        · simpa [List.range'_succ] using hnums
        · intro h
          obtain ⟨h1, h2⟩ := hmax h
          refine ⟨by simpa using h1, ?_⟩
          intro x hx
          rcases List.mem_cons.mp hx with hx | hx
          · subst hx; simpa using lt_of_not_le hthr
          · exact h2 x hx
        · intro h
          obtain ⟨pre, last, h1, h2, h3⟩ := hthm h
          refine ⟨⟨roundNum, conf, newScore roundNum⟩ :: pre, last, by simp [h1], h2, ?_⟩
          intro x hx
          rcases List.mem_cons.mp hx with hx | hx
          · subst hx; simpa using lt_of_not_le hthr
          · exact h3 x hx
      · by_cases hstag : newScore roundNum - conf < p.epsilon
        · by_cases hcnt : 2 ≤ noGain + 1
          · -- stop condition 3: second consecutive stagnating round
            obtain ⟨hle, hprev⟩ := hinv
            have hng1 : noGain = 1 := by omega
            obtain ⟨hd, tl, hacc, hstagh⟩ := hprev hng1
            have heq : clarifyAux newScore p (fuel + 1) roundNum conf noGain acc
                = { success := false,
                    rounds := (⟨roundNum, conf, newScore roundNum⟩ :: acc).reverse,
                    finalConfidence := newScore roundNum,
                    reason := "no_information_gain" } := by
              simp [clarifyAux, hthr, hneg, hstag, hcnt]
            rw [heq]
            refine ⟨[⟨roundNum, conf, newScore roundNum⟩], by simp, by simp,
              by simp [List.range'], by simp, by simp, by simp, by simp, ?_⟩
            intro _
            refine ⟨tl.reverse, hd, ⟨roundNum, conf, newScore roundNum⟩, ?_, hstagh,
              lt_of_not_le hthr, le_of_not_lt hneg, hstag⟩
            simp [hacc]
          · -- first stagnating round: increment the counter and continue
            have hng0 : noGain = 0 := by omega
            obtain ⟨extra, hr, hlen, hnums, hreas, hsucc, hmax, hthm, hnoinf⟩ :=
              ih (roundNum + 1) (newScore roundNum) (noGain + 1)
                (⟨roundNum, conf, newScore roundNum⟩ :: acc)
                ⟨by omega, fun _ => ⟨⟨roundNum, conf, newScore roundNum⟩, acc, rfl,
                  lt_of_not_le hthr, le_of_not_lt hneg, hstag⟩⟩
            have heq : clarifyAux newScore p (fuel + 1) roundNum conf noGain acc
                = clarifyAux newScore p fuel (roundNum + 1) (newScore roundNum) (noGain + 1)
                    (⟨roundNum, conf, newScore roundNum⟩ :: acc) := by
              simp [clarifyAux, hthr, hneg, hstag, hcnt]
            rw [heq]
            refine ⟨⟨roundNum, conf, newScore roundNum⟩ :: extra, ?_, by simpa using hlen,
              ?_, hreas, hsucc, ?_, ?_, hnoinf⟩
            · simpa using hr
            · simpa [List.range'_succ] using hnums
            · intro h
              obtain ⟨h1, h2⟩ := hmax h
              refine ⟨by simpa using h1, ?_⟩
              intro x hx
              rcases List.mem_cons.mp hx with hx | hx
              · subst hx; simpa using lt_of_not_le hthr
              · exact h2 x hx
            · intro h
              obtain ⟨pre, last, h1, h2, h3⟩ := hthm h
              refine ⟨⟨roundNum, conf, newScore roundNum⟩ :: pre, last, by simp [h1], h2, ?_⟩
              intro x hx
              rcases List.mem_cons.mp hx with hx | hx
              · subst hx; simpa using lt_of_not_le hthr
              · exact h3 x hx
        · -- meaningful gain: reset the counter and continue
          obtain ⟨extra, hr, hlen, hnums, hreas, hsucc, hmax, hthm, hnoinf⟩ :=
            ih (roundNum + 1) (newScore roundNum) 0
              (⟨roundNum, conf, newScore roundNum⟩ :: acc) ⟨by omega, by simp⟩
          have heq : clarifyAux newScore p (fuel + 1) roundNum conf noGain acc
              = clarifyAux newScore p fuel (roundNum + 1) (newScore roundNum) 0
                  (⟨roundNum, conf, newScore roundNum⟩ :: acc) := by
            simp [clarifyAux, hthr, hneg, hstag]
          rw [heq]
          refine ⟨⟨roundNum, conf, newScore roundNum⟩ :: extra, ?_, by simpa using hlen,
            ?_, hreas, hsucc, ?_, ?_, hnoinf⟩
          · simpa using hr
          · simpa [List.range'_succ] using hnums
          · intro h
            obtain ⟨h1, h2⟩ := hmax h
            refine ⟨by simpa using h1, ?_⟩
            intro x hx
            rcases List.mem_cons.mp hx with hx | hx
            · subst hx; simpa using lt_of_not_le hthr
            · exact h2 x hx
          · intro h
            obtain ⟨pre, last, h1, h2, h3⟩ := hthm h
            refine ⟨⟨roundNum, conf, newScore roundNum⟩ :: pre, last, by simp [h1], h2, ?_⟩
            intro x hx
            rcases List.mem_cons.mp hx with hx | hx
            · subst hx; simpa using lt_of_not_le hthr
            · exact h3 x hx

/-- C1: in every round of `NegotiationLoop.clarify_until_confident` the stop
conditions are evaluated in order — re-match score ≥ threshold returns success
with reason `"threshold_met"`; otherwise a negative delta resets the stagnation
counter and a delta in `[0, ε)` increments it, two consecutive such rounds
returning failure with reason `"no_information_gain"`; after `max_rounds`
rounds with neither condition triggering the loop returns failure with reason
`"max_rounds_exceeded"`.  These three are the only possible reasons, `success`
holds exactly for `"threshold_met"`, and `len(rounds)` equals the number of
rounds executed (the rounds are numbered `1, 2, …, len(rounds)`). -/
theorem C1_negotiation_stop_conditions (newScore : ℕ → ℚ) (p : NegParams) (c0 : ℚ) :
    ((clarifyUntilConfident newScore p c0).reason = "threshold_met" ∨
     (clarifyUntilConfident newScore p c0).reason = "no_information_gain" ∨
     (clarifyUntilConfident newScore p c0).reason = "max_rounds_exceeded") ∧
    ((clarifyUntilConfident newScore p c0).success = true ↔
      (clarifyUntilConfident newScore p c0).reason = "threshold_met") ∧
    (clarifyUntilConfident newScore p c0).rounds.length ≤ p.maxRounds ∧
    (clarifyUntilConfident newScore p c0).rounds.map (·.roundNum)
        = List.range' 1 (clarifyUntilConfident newScore p c0).rounds.length ∧
    ((clarifyUntilConfident newScore p c0).reason = "max_rounds_exceeded" →
      (clarifyUntilConfident newScore p c0).rounds.length = p.maxRounds ∧
      ∀ x ∈ (clarifyUntilConfident newScore p c0).rounds,
        x.confidenceAfter < p.threshold) ∧
    ((clarifyUntilConfident newScore p c0).reason = "threshold_met" →
      ∃ pre last, (clarifyUntilConfident newScore p c0).rounds = pre ++ [last] ∧
        p.threshold ≤ last.confidenceAfter ∧
        ∀ x ∈ pre, x.confidenceAfter < p.threshold) ∧
    ((clarifyUntilConfident newScore p c0).reason = "no_information_gain" →
      ∃ pre a b, (clarifyUntilConfident newScore p c0).rounds = pre ++ [a, b] ∧
        Stagnant p a ∧ Stagnant p b) := by
  obtain ⟨extra, hr, hlen, hnums, hreas, hsucc, hmax, hthm, hnoinf⟩ :=
    clarifyAux_spec newScore p p.maxRounds 1 c0 0 [] ⟨by omega, by simp⟩
  have hext : (clarifyUntilConfident newScore p c0).rounds = extra := by
    simpa [clarifyUntilConfident] using hr
  refine ⟨hreas, hsucc, ?_, ?_, ?_, ?_, hnoinf⟩
  · rw [clarifyUntilConfident, hext] at *
    exact hlen
  · rw [clarifyUntilConfident, hext] at *
    exact hnums
  · intro h
    rw [clarifyUntilConfident, hext] at *
    exact hmax h
  · intro h
    rw [clarifyUntilConfident, hext] at *
    exact hthm h

/-- Witness for `C1_negotiation_stop_conditions`: with threshold `4/5` and a
re-match score of `9/10` from round 1, the loop stops at round 1 with reason
`"threshold_met"`, and the theorem yields the final-round decomposition. -/
theorem C1_negotiation_stop_conditions_witness :
    ∃ pre last,
      (clarifyUntilConfident (fun _ => (9:ℚ)/10)
          ⟨3, 1/20, 4/5⟩ (1/2)).rounds = pre ++ [last] ∧
      (4:ℚ)/5 ≤ last.confidenceAfter ∧
      ∀ x ∈ pre, x.confidenceAfter < (4:ℚ)/5 :=
  (C1_negotiation_stop_conditions (fun _ => (9:ℚ)/10) ⟨3, 1/20, 4/5⟩ (1/2)).2.2.2.2.2.1
    (by norm_num [clarifyUntilConfident, clarifyAux])

/-! ## State manager (`lgdl/runtime/state.py`, `StateManager` + `TTLCache`)

`StateManager` guards every mutation with `self.state_lock`, a non-reentrant
`asyncio.Lock`.  We model the execution of one state-manager call as a
single-task computation: `await lock.acquire()` on a lock the task itself
already holds never completes (no other task can release it), which the model
renders as `none`.  `held` records whether the current call chain already
holds `state_lock` when a helper runs.

The ephemeral `TTLCache` is modelled as an `Option PState` (within one
sequential run no entry expires; its internal `_lock` is private to the cache
and never held across `StateManager` code, so it cannot self-deadlock).  The
durable `StorageBackend` is modelled as an `Option PState` store; per the
claims' premise its calls return.

`Turn` carries many fields; the claims are about the per-conversation turn
numbers, so `PState` keeps `turns_history` as the list of `turn_num`s. -/

/-- `PersistentState`, restricted to the turn numbers of `turns_history`. -/
structure PState where
  turnNums : List ℕ
  deriving Repr, DecidableEq

/-- One `StateManager` for one conversation id: durable store plus the
ephemeral TTL cache entry for `persistent:{conversation_id}`. -/
structure SMState where
  store : Option PState
  cache : Option PState
  deriving Repr, DecidableEq

/-- `StateManager.get_or_create` (state.py lines 179-205): cache hit returns
immediately (before any lock); on a miss the code does
`async with self.state_lock:` — which never completes if the current call
chain already holds the lock (`held = true`) — then loads from the durable
store, creates a fresh conversation when absent, and refreshes the cache. -/
def getOrCreate (held : Bool) (sm : SMState) : Option (PState × SMState) :=
  match sm.cache with
  | some st => some (st, sm)
  | none =>
    if held then
      none
    else
      match sm.store with
      | some st => some (st, { sm with cache := some st })
      | none =>
        some ({ turnNums := [] },
          { store := some { turnNums := [] }, cache := some { turnNums := [] } })

/-- `StateManager.update` (state.py lines 207-246): acquires `state_lock`,
then calls `self.get_or_create` **while still holding it**, appends the turn
(`PersistentState.add_turn`), saves to the durable store and refreshes the
cache. -/
def smUpdate (turnNum : ℕ) (sm : SMState) : Option (PState × SMState) :=
  match getOrCreate true sm with
  | none => none
  | some (st, sm') =>
    some ({ turnNums := st.turnNums ++ [turnNum] },
      { sm' with
        store := some { turnNums := st.turnNums ++ [turnNum] },
        cache := some { turnNums := st.turnNums ++ [turnNum] } })

/-- The persistence tail of `LGDLRuntime.process_turn` (engine.py lines
131-135 and 416-427): load the state with `get_or_create` (lock free at this
point), build the `Turn` with `turn_num = state.turn_count + 1`, and hand it
to `StateManager.update`. -/
def processTurnPersist (sm : SMState) : Option (PState × SMState) :=
  match getOrCreate false sm with
  | none => none
  | some (st, sm₁) => smUpdate (st.turnNums.length + 1) sm₁

/-- `n` sequential `process_turn` persistence steps on one conversation id. -/
def runTurns : ℕ → SMState → Option SMState
  | 0, sm => some sm
  | n + 1, sm =>
    match processTurnPersist sm with
    | none => none
    | some (_, sm') => runTurns n sm'

theorem runTurns_cached (n : ℕ) :
    ∀ l : List ℕ,
      runTurns n { store := some ⟨l⟩, cache := some ⟨l⟩ }
        = some { store := some ⟨l ++ List.range' (l.length + 1) n⟩,
                 cache := some ⟨l ++ List.range' (l.length + 1) n⟩ } := by
  induction n with
  | zero => intro l; simp [runTurns]
  | succ n ih =>
    intro l
    have hstep : processTurnPersist { store := some ⟨l⟩, cache := some ⟨l⟩ }
        = some (⟨l ++ [l.length + 1]⟩,
            { store := some ⟨l ++ [l.length + 1]⟩, cache := some ⟨l ++ [l.length + 1]⟩ }) := by
      simp [processTurnPersist, getOrCreate, smUpdate]
    have hlen : (l ++ [l.length + 1]).length = l.length + 1 := by simp
    calc runTurns (n + 1) { store := some ⟨l⟩, cache := some ⟨l⟩ }
        = runTurns n { store := some ⟨l ++ [l.length + 1]⟩,
                       cache := some ⟨l ++ [l.length + 1]⟩ } := by
          simp [runTurns, hstep]
      _ = some { store := some ⟨(l ++ [l.length + 1]) ++ List.range' (l.length + 1 + 1) n⟩,
                 cache := some ⟨(l ++ [l.length + 1]) ++ List.range' (l.length + 1 + 1) n⟩ } := by
          rw [ih (l ++ [l.length + 1]), hlen]
      _ = some { store := some ⟨l ++ List.range' (l.length + 1) (n + 1)⟩,
                 cache := some ⟨l ++ List.range' (l.length + 1) (n + 1)⟩ } := by
          rw [List.range'_succ]
          simp

/-- C2: `n + 1` sequential `process_turn` persistence steps on one fresh
conversation id terminate and produce a `turns_history` whose turn numbers
are exactly `1, 2, …, n + 1`, in order — append-only, strictly increasing,
nothing lost or duplicated.  (The engine computes `turn_num =
state.turn_count + 1` and `StateManager.update` appends exactly that turn.) -/
theorem C2_sequential_turn_numbers (n : ℕ) :
    runTurns (n + 1) { store := none, cache := none }
      = some { store := some ⟨List.range' 1 (n + 1)⟩,
               cache := some ⟨List.range' 1 (n + 1)⟩ } := by
  have hstep : processTurnPersist { store := none, cache := none }
      = some (⟨[1]⟩, { store := some ⟨[1]⟩, cache := some ⟨[1]⟩ }) := by
    simp [processTurnPersist, getOrCreate, smUpdate]
  calc runTurns (n + 1) { store := none, cache := none }
      = runTurns n { store := some ⟨[1]⟩, cache := some ⟨[1]⟩ } := by
        simp [runTurns, hstep]
    _ = some { store := some ⟨[1] ++ List.range' 2 n⟩,
               cache := some ⟨[1] ++ List.range' 2 n⟩ } := by
        simpa using runTurns_cached n [1]
    _ = some { store := some ⟨List.range' 1 (n + 1)⟩,
               cache := some ⟨List.range' 1 (n + 1)⟩ } := by
        rw [List.range'_succ]
        simp

/-- C10: `StateManager.update` self-deadlocks whenever the conversation is
not in the ephemeral cache at the time of the call — for a brand-new
conversation and equally for one whose entry expired but which the durable
store still holds.  `update` acquires `state_lock` and then awaits the same
non-reentrant lock again inside `get_or_create` (cache-miss path); the inner
`acquire` can never complete, so the call never returns (modelled as `none`).
A cache hit is the only case in which `update` returns. -/
theorem C10_update_deadlocks_on_cache_miss :
    smUpdate 1 { store := none, cache := none } = none ∧
    smUpdate 1 { store := some ⟨[1, 2]⟩, cache := none } = none ∧
    smUpdate 3 { store := some ⟨[1, 2]⟩, cache := some ⟨[1, 2]⟩ }
      = some (⟨[1, 2, 3]⟩,
          { store := some ⟨[1, 2, 3]⟩, cache := some ⟨[1, 2, 3]⟩ }) := by
  refine ⟨rfl, rfl, rfl⟩

/-! ## String primitives shared by the slot/matcher/negotiation models

Python's `str.lower()` and the `in` (substring) operator, modelled over the
ASCII range (every string any claim touches is ASCII; Python's Unicode
folding agrees with ASCII folding there). -/

/-- ASCII lower-casing of one character (`str.lower`). -/
def lowerChar (c : Char) : Char :=
  if 'A' ≤ c ∧ c ≤ 'Z' then Char.ofNat (c.toNat + 32) else c

/-- `str.lower` on a whole string. -/
def toLowerStr (s : String) : String := String.mk (s.data.map lowerChar)

/-- List-of-characters prefix test (helper for the substring test). -/
def isPrefL : List Char → List Char → Bool
  | [], _ => true
  | _ :: _, [] => false
  | a :: as, b :: bs => a == b && isPrefL as bs

/-- Python's `needle in hay` substring test on character lists. -/
def isSubL : List Char → List Char → Bool
  | needle, [] => needle.isEmpty
  | needle, c :: rest => isPrefL needle (c :: rest) || isSubL needle rest

theorem isPrefL_length {n h : List Char} (hp : isPrefL n h = true) :
    n.length ≤ h.length := by
  induction n generalizing h with
  | nil => simp
  | cons a as ih =>
    cases h with
    | nil => simp [isPrefL] at hp
    | cons b bs =>
      simp only [isPrefL, Bool.and_eq_true] at hp
      simpa using ih hp.2

theorem isSubL_length {n h : List Char} (hs : isSubL n h = true) :
    n.length ≤ h.length := by
  induction h with
  | nil =>
    simp only [isSubL, List.isEmpty_iff] at hs
    simp [hs]
  | cons c rest ih =>
    simp only [isSubL, Bool.or_eq_true] at hs
    rcases hs with hs | hs
    · exact isPrefL_length hs
    · exact le_trans (ih hs) (by simp)

/-! ## Slot validation (`lgdl/runtime/slots.py`, `SlotManager.validate_slot_value`)

The claim under scrutiny concerns the `enum` branch (slots.py lines 121-136):
lower-case the value, scan `enum_values` for a case-insensitive exact match,
then for a case-insensitive substring match in either direction
(`value_str in enum_val.lower() or enum_val.lower() in value_str`), and fail
otherwise.  The branch returns `(is_valid, coerced_value)`. -/

/-- The `enum` branch of `SlotManager.validate_slot_value`. `enumValues` is
`slot_def.get("enum_values", [])`; the value is passed as the string
`str(value)`. -/
def validateEnumValue (enumValues : List String) (value : String) : Bool × Option String :=
  let valueStr := toLowerStr value
  match enumValues.find? (fun e => valueStr == toLowerStr e) with
  | some e => (true, some e)
  | none =>
    match enumValues.find? (fun e =>
        isSubL valueStr.data (toLowerStr e).data
          || isSubL (toLowerStr e).data valueStr.data) with
    | some e => (true, some e)
    | none => (false, none)

/-- C3 counterexample: the claim says an empty `enum_values` list makes
`validate_slot_value` accept the raw input, but the code's two scans over the
empty list both fail and the branch returns `(False, None)` — it rejects
every value, here the concrete input `"anything"`. -/
theorem C3_empty_enum_rejected :
    validateEnumValue [] "anything" = (false, none) ∧
    ¬ (validateEnumValue [] "anything").1 = true := by
  refine ⟨rfl, by simp [validateEnumValue]⟩

/-- C3 (amended): for every enum slot definition and value,
`validate_slot_value` accepts iff some enum value matches the value
case-insensitively — exactly, or by substring containment in either
direction — and the coerced result is then one of the enum values; the
concrete examples `enum(["red","green","blue"])` accepts `"RED"` (as
`"red"`) and `"I like blue"` (as `"blue"`) and rejects `"yellow"`.  The
amendment: an **empty** enum list rejects every value here (the
accept-raw-input behaviour lives in `SlotExtractionEngine._extract_enum`,
not in `validate_slot_value`). -/
theorem C3_enum_validation (enumValues : List String) (value : String) :
    ((validateEnumValue enumValues value).1 = true ↔
      ∃ e ∈ enumValues,
        (toLowerStr value = toLowerStr e ∨
         isSubL (toLowerStr value).data (toLowerStr e).data = true ∨
         isSubL (toLowerStr e).data (toLowerStr value).data = true)) ∧
    (∀ e, (validateEnumValue enumValues value).2 = some e → e ∈ enumValues) ∧
    (enumValues = [] → validateEnumValue enumValues value = (false, none)) ∧
    validateEnumValue ["red", "green", "blue"] "RED" = (true, some "red") ∧
    validateEnumValue ["red", "green", "blue"] "I like blue" = (true, some "blue") ∧
    (validateEnumValue ["red", "green", "blue"] "yellow").1 = false := by
  refine ⟨?_, ?_, ?_, by decide, by decide, by decide⟩
  · constructor
    · intro h
      rcases hfind : enumValues.find? (fun e => toLowerStr value == toLowerStr e) with _ | e
      · rcases hfind2 : enumValues.find? (fun e =>
            isSubL (toLowerStr value).data (toLowerStr e).data
              || isSubL (toLowerStr e).data (toLowerStr value).data) with _ | e
        · simp [validateEnumValue, hfind, hfind2] at h
        · refine ⟨e, List.mem_of_find?_eq_some hfind2, ?_⟩
          have := List.find?_some hfind2
          rcases Bool.or_eq_true _ _ |>.mp this with h1 | h1
          · exact Or.inr (Or.inl h1)
          · exact Or.inr (Or.inr h1)
      · refine ⟨e, List.mem_of_find?_eq_some hfind, ?_⟩
        have := List.find?_some hfind
        exact Or.inl (by simpa using this)
    · rintro ⟨e, hmem, hcond⟩
      rcases hfind : enumValues.find? (fun e => toLowerStr value == toLowerStr e) with _ | e'
      · rcases hfind2 : enumValues.find? (fun e =>
            isSubL (toLowerStr value).data (toLowerStr e).data
              || isSubL (toLowerStr e).data (toLowerStr value).data) with _ | e'
        · exfalso
          rcases hcond with hc | hc | hc
          · exact absurd (by simpa using hc) (by simpa using List.find?_eq_none.mp hfind e hmem)
          · have := List.find?_eq_none.mp hfind2 e hmem
            simp only [Bool.or_eq_true, not_or] at this
            exact absurd hc this.1
          · have := List.find?_eq_none.mp hfind2 e hmem
            simp only [Bool.or_eq_true, not_or] at this
            exact absurd hc this.2
        · simp [validateEnumValue, hfind, hfind2]
      · simp [validateEnumValue, hfind]
  · intro e he
    rcases hfind : enumValues.find? (fun e => toLowerStr value == toLowerStr e) with _ | e'
    · rcases hfind2 : enumValues.find? (fun e =>
          isSubL (toLowerStr value).data (toLowerStr e).data
            || isSubL (toLowerStr e).data (toLowerStr value).data) with _ | e'
      · simp [validateEnumValue, hfind, hfind2] at he
      · simp only [validateEnumValue, hfind, hfind2, Option.some.injEq] at he
        exact he ▸ List.mem_of_find?_eq_some hfind2
    · simp only [validateEnumValue, hfind, Option.some.injEq] at he
      exact he ▸ List.mem_of_find?_eq_some hfind
  · intro h
    subst h
    rfl

/-- Witness for `C3_enum_validation`: instantiating at the concrete enum list
`["red","green","blue"]` and the value `"RED"`, the coercion clause
(hypothesis `(validate…).2 = some e` discharged by `decide`) places the
coerced value in the enum list. -/
theorem C3_enum_validation_witness : "red" ∈ ["red", "green", "blue"] :=
  (C3_enum_validation ["red", "green", "blue"] "RED").2.1 "red" (by decide)

/-! ## Cascade matcher (`lgdl/runtime/matcher.py`, `CascadeMatcher`)

`CascadeMatcher.match` iterates over the compiled game's moves; per move it
runs `_lexical_match`, short-circuiting at `cascade_lexical_threshold`, then
`_embedding_match`, short-circuiting at `cascade_embedding_threshold`,
tracking the best stage-1/2 result otherwise; only after the whole move loop
does the optional LLM stage run over all moves (when enabled, a context is
given and the best score so far is `< 0.85`), early-exiting at `≥ 0.90`.

Oracles: whether a compiled pattern's regex matches the text
(`Pattern.hits`), the un-clamped cosine ratio between the embeddings of the
text and of the pattern (`Pattern.rawSim` — `cosine` then clamps it into
`[0,1]`, matcher.py line 194), and the confidence the LLM stage reports for
the pattern (`Pattern.llmConf`, the value of
`result.get("confidence", 0.0)` after `LLMSemanticMatcher.match`, which is
`0.0` whenever the completion call raised).  Captured regex params are not
modelled: no claim mentions their values.  Call counts: `_embedding_match`
invokes `embed()` twice per pattern of a user/assistant trigger when the
embedding client is enabled; the LLM stage makes one completion call per
such pattern. -/

/-- One trigger pattern together with the oracles describing its external
collaborators (see section comment). -/
structure Pattern where
  text : String
  hits : String → Bool
  rawSim : String → ℚ
  llmConf : String → ℚ

/-- A trigger: participant plus patterns (matcher.py iterates
`move["triggers"]`, skipping participants other than user/assistant). -/
structure Trigger where
  participant : String
  patterns : List Pattern

/-- A compiled move as the matcher reads it. -/
structure Move where
  id : String
  triggers : List Trigger

/-- The clamp in `cosine` (matcher.py line 194): `max(0.0, min(1.0, ·))`. -/
def clamp01 (x : ℚ) : ℚ := max 0 (min 1 x)

/-- Is `c` an ASCII lowercase letter (the `[a-z]+` token class)? -/
def isLowerAlpha (c : Char) : Bool := 'a' ≤ c ∧ c ≤ 'z'

/-- Maximal runs of `[a-z]` characters (the `re.findall(r"[a-z]+", ·)`
tokenizer of `token_overlap`), accumulator-style. -/
def tokensAux : List Char → List Char → List (List Char)
  | [], cur => if cur.isEmpty then [] else [cur.reverse]
  | c :: rest, cur =>
    if isLowerAlpha c then tokensAux rest (c :: cur)
    else if cur.isEmpty then tokensAux rest [] else cur.reverse :: tokensAux rest []

/-- `re.findall(r"[a-z]+", s.lower())`. -/
def lowerTokens (s : String) : List (List Char) := tokensAux (toLowerStr s).data []

/-- `token_overlap` (matcher.py lines 9-14): `0` when either token set is
empty, else `min(1.0, 0.4 + 0.1 * |ta ∩ tb|)`. -/
def tokenOverlap (a b : String) : ℚ :=
  let ta := (lowerTokens a).dedup
  let tb := (lowerTokens b).dedup
  if ta.isEmpty || tb.isEmpty then 0
  else min 1 (2/5 + (1/10) * ((ta.filter (fun t => tb.contains t)).length : ℚ))

/-- Confidence the embedding stage computes for one pattern
(`_embedding_match` body): `min(1.0, 0.4 + 0.6·cosine)` when the embedding
client is enabled, else `token_overlap(text, pattern_text)`. -/
def embConfOf (embEnabled : Bool) (text : String) (pat : Pattern) : ℚ :=
  if embEnabled then min 1 (2/5 + (3/5) * clamp01 (pat.rawSim text))
  else tokenOverlap text pat.text

/-- The inner `for pat in trig["patterns"]` best-tracking fold shared by the
three stage helpers (`best` is updated only on strict improvement). -/
def bestFoldP (keep : Pattern → Bool) (conf : Pattern → ℚ) :
    List Pattern → ℚ × String → ℚ × String
  | [], b => b
  | pat :: rest, b =>
    bestFoldP keep conf rest
      (if keep pat then (if b.1 < conf pat then (conf pat, pat.text) else b) else b)

/-- The outer `for trig in move["triggers"]` fold with the participant
filter. -/
def bestFoldT (keep : Pattern → Bool) (conf : Pattern → ℚ) :
    List Trigger → ℚ × String → ℚ × String
  | [], b => b
  | trig :: rest, b =>
    bestFoldT keep conf rest
      (if trig.participant == "user" || trig.participant == "assistant"
       then bestFoldP keep conf trig.patterns b else b)

/-- Best (confidence, pattern-text) over a move's patterns, starting from
`(0.0, "")`. -/
def stageBest (move : Move) (keep : Pattern → Bool) (conf : Pattern → ℚ) : ℚ × String :=
  bestFoldT keep conf move.triggers (0, "")

/-- `CascadeMatcher._lexical_match`: patterns whose regex matches score the
constant `0.85`. -/
def lexicalMatch (text : String) (move : Move) : ℚ × String :=
  stageBest move (fun pat => pat.hits text) (fun _ => 17/20)

/-- `CascadeMatcher._embedding_match`. -/
def embeddingMatch (embEnabled : Bool) (text : String) (move : Move) : ℚ × String :=
  stageBest move (fun _ => true) (embConfOf embEnabled text)

/-- `CascadeMatcher._llm_match`: per pattern the LLM-reported confidence
(`0.0` for a failed call, per `LLMSemanticMatcher.match`). -/
def llmMatch (text : String) (move : Move) : ℚ × String :=
  stageBest move (fun _ => true) (fun pat => pat.llmConf text)

/-- Number of patterns the stage loops visit (user/assistant triggers). -/
def patternCount (move : Move) : ℕ :=
  ((move.triggers.filter
      (fun t => t.participant == "user" || t.participant == "assistant")).map
    (fun t => t.patterns.length)).sum

/-- `embed()` calls one `_embedding_match` makes: two per visited pattern
(text and pattern text) when the embedding client is enabled, none otherwise
(the fallback `token_overlap` is local). -/
def embCallsPerMove (embEnabled : Bool) (move : Move) : ℕ :=
  if embEnabled then 2 * patternCount move else 0

/-- LLM completion calls one `_llm_match` makes: one per visited pattern. -/
def llmCallsPerMove (move : Move) : ℕ := patternCount move

/-- The result dict of `CascadeMatcher.match` (move id, score, stage). -/
structure MatchOut where
  move : Option String
  score : ℚ
  stage : String
  deriving Repr, DecidableEq

/-- The cascade-relevant part of `LGDLConfig` plus the embedding client's
enabled flag. -/
structure MatcherConfig where
  lexThreshold : ℚ
  embThreshold : ℚ
  llmEnabled : Bool
  embEnabled : Bool

/-- The stage-1/2 candidate tracked as `best_overall` when neither stage of a
move short-circuited (matcher.py lines 620-629): the larger of the two
confidences, stage `"embedding"` iff the embedding confidence is strictly
larger. -/
def stage12Cand (cfg : MatcherConfig) (text : String) (m : Move) : MatchOut :=
  { move := some m.id,
    score := max (lexicalMatch text m).1 (embeddingMatch cfg.embEnabled text m).1,
    stage := if (lexicalMatch text m).1 < (embeddingMatch cfg.embEnabled text m).1
             then "embedding" else "lexical" }

/-- `best_overall` update: replace on strict improvement (matcher.py line
622: `if not best_overall or best_conf > best_overall["score"]`). -/
def updateBest (cand : MatchOut) : Option MatchOut → Option MatchOut
  | none => some cand
  | some b => if b.score < cand.score then some cand else some b

/-- The `for move in compiled_game["moves"]` loop of `CascadeMatcher.match`
(matcher.py lines 589-629).  `.error` is the early `return` (short-circuit at
the lexical or embedding threshold), `.ok` is falling through with the best
stage-1/2 result.  The second component counts `embed()` calls so far. -/
def moveLoop (cfg : MatcherConfig) (text : String) :
    List Move → Option MatchOut → ℕ → Except (MatchOut × ℕ) (Option MatchOut × ℕ)
  | [], best, calls => .ok (best, calls)
  | m :: rest, best, calls =>
    if cfg.lexThreshold ≤ (lexicalMatch text m).1 then
      .error ({ move := some m.id, score := (lexicalMatch text m).1, stage := "lexical" },
        calls)
    else
      if cfg.embThreshold ≤ (embeddingMatch cfg.embEnabled text m).1 then
        .error ({ move := some m.id,
                  score := (embeddingMatch cfg.embEnabled text m).1,
                  stage := "embedding" }, calls + embCallsPerMove cfg.embEnabled m)
      else
        moveLoop cfg text rest (updateBest (stage12Cand cfg text m) best)
          (calls + embCallsPerMove cfg.embEnabled m)

theorem updateBest_eq_some {cand : MatchOut} :
    ∀ {best : Option MatchOut} {b' : MatchOut},
      updateBest cand best = some b' → b' = cand ∨ best = some b' := by
  intro best b' h
  cases best with
  | none =>
    simp only [updateBest, Option.some.injEq] at h
    exact Or.inl h.symm
  | some b =>
    by_cases hup : b.score < cand.score
    · simp only [updateBest, if_pos hup, Option.some.injEq] at h
      exact Or.inl h.symm
    · simp only [updateBest, if_neg hup, Option.some.injEq] at h
      exact Or.inr (by rw [h])

theorem updateBest_ne_none (cand : MatchOut) (best : Option MatchOut) :
    updateBest cand best ≠ none := by
  cases best with
  | none => simp [updateBest]
  | some b =>
    by_cases hup : b.score < cand.score <;> simp [updateBest, hup]

/-- The stage-3 `for move in compiled_game["moves"]` loop (matcher.py lines
636-654): update on strict improvement, break once a confidence `≥ 0.90` was
accepted.  The second component counts LLM completion calls. -/
def llmLoop (text : String) : List Move → MatchOut → ℕ → MatchOut × ℕ
  | [], best, calls => (best, calls)
  | m :: rest, best, calls =>
    if best.score < (llmMatch text m).1 then
      if (9 : ℚ)/10 ≤ (llmMatch text m).1 then
        ({ move := some m.id, score := (llmMatch text m).1, stage := "llm_semantic" },
          calls + llmCallsPerMove m)
      else
        llmLoop text rest
          { move := some m.id, score := (llmMatch text m).1, stage := "llm_semantic" }
          (calls + llmCallsPerMove m)
    else llmLoop text rest best (calls + llmCallsPerMove m)

/-- `CascadeMatcher.match` result plus the external-call counts. -/
structure CascadeResult where
  out : MatchOut
  embCalls : ℕ
  llmCalls : ℕ
  deriving Repr, DecidableEq

/-- `CascadeMatcher.match` (matcher.py lines 564-668).  When the move loop
completes without best result the game had no moves, so the stage-3 loop
(over the same move list) is a no-op and the `"none"` result is returned. -/
def cascadeMatch (cfg : MatcherConfig) (text : String) (moves : List Move)
    (hasContext : Bool) : CascadeResult :=
  match moveLoop cfg text moves none 0 with
  | .error (out, embCalls) => ⟨out, embCalls, 0⟩
  | .ok (none, embCalls) => ⟨{ move := none, score := 0, stage := "none" }, embCalls, 0⟩
  | .ok (some b, embCalls) =>
    if cfg.llmEnabled && hasContext && b.score < 17/20 then
      ⟨(llmLoop text moves b 0).1, embCalls, (llmLoop text moves b 0).2⟩
    else ⟨b, embCalls, 0⟩

theorem moveLoop_shortcircuit (cfg : MatcherConfig) (text : String) :
    ∀ (moves : List Move) (best : Option MatchOut) (calls : ℕ),
      (∃ m ∈ moves, cfg.lexThreshold ≤ (lexicalMatch text m).1) →
      ∃ out calls', moveLoop cfg text moves best calls = .error (out, calls') ∧
        (out.stage = "lexical" ∨ out.stage = "embedding") := by
  intro moves
  induction moves with
  | nil => simp
  | cons m rest ih =>
    intro best calls hex
    by_cases hlex : cfg.lexThreshold ≤ (lexicalMatch text m).1
    · exact ⟨{ move := some m.id, score := (lexicalMatch text m).1, stage := "lexical" },
        calls, by simp [moveLoop, hlex], Or.inl rfl⟩
    · by_cases hemb : cfg.embThreshold ≤ (embeddingMatch cfg.embEnabled text m).1
      · exact ⟨{ move := some m.id,
                 score := (embeddingMatch cfg.embEnabled text m).1,
                 stage := "embedding" },
          calls + embCallsPerMove cfg.embEnabled m,
          by simp [moveLoop, hlex, hemb], Or.inr rfl⟩
      · have hex' : ∃ m' ∈ rest, cfg.lexThreshold ≤ (lexicalMatch text m').1 := by
          rcases hex with ⟨m', hm', h⟩
          rcases List.mem_cons.mp hm' with rfl | hm'
          · exact absurd h hlex
          · exact ⟨m', hm', h⟩
        obtain ⟨out, calls', heq, hst⟩ := ih _ _ hex'
        refine ⟨out, calls', ?_, hst⟩
        simpa [moveLoop, hlex, hemb] using heq

/-- C4 (amended): if the **first** move of the compiled game has a lexical
match at or above `cascade_lexical_threshold`, `CascadeMatcher.match` returns
stage `"lexical"` for that move having made no embedding or LLM calls.  For a
qualifying move further down the list the guarantee weakens to: the move loop
still short-circuits before any LLM call (result stage `"lexical"` or
`"embedding"`), but the embedding stage has already run for every earlier
move, and an earlier move may take the match at stage `"embedding"`. -/
theorem C4_lexical_short_circuit (cfg : MatcherConfig) (text : String) (hasCtx : Bool) :
    (∀ (m : Move) (rest : List Move), cfg.lexThreshold ≤ (lexicalMatch text m).1 →
      cascadeMatch cfg text (m :: rest) hasCtx
        = ⟨{ move := some m.id, score := (lexicalMatch text m).1, stage := "lexical" },
            0, 0⟩) ∧
    (∀ moves : List Move, (∃ m ∈ moves, cfg.lexThreshold ≤ (lexicalMatch text m).1) →
      (cascadeMatch cfg text moves hasCtx).llmCalls = 0 ∧
      ((cascadeMatch cfg text moves hasCtx).out.stage = "lexical" ∨
       (cascadeMatch cfg text moves hasCtx).out.stage = "embedding")) := by
  constructor
  · intro m rest h
    simp [cascadeMatch, moveLoop, h]
  · intro moves hex
    obtain ⟨out, calls', heq, hst⟩ := moveLoop_shortcircuit cfg text moves none 0 hex
    rw [show cascadeMatch cfg text moves hasCtx = ⟨out, calls', 0⟩ by
      simp [cascadeMatch, heq]]
    exact ⟨rfl, hst⟩

/-- A pattern whose regex does not match but whose embedding similarity is
maximal (raw cosine ratio 1). -/
def demoPatternEmb : Pattern := ⟨"p1", fun _ => false, fun _ => 1, fun _ => 0⟩

/-- First demo move: no lexical hit, perfect embedding similarity. -/
def demoMoveEmb : Move := ⟨"m1", [⟨"user", [demoPatternEmb]⟩]⟩

/-- A pattern whose regex matches the input exactly. -/
def demoPatternHit : Pattern := ⟨"p2", fun _ => true, fun _ => 0, fun _ => 0⟩

/-- Second demo move: an exact lexical match (confidence 0.85). -/
def demoMoveLex : Move := ⟨"m2", [⟨"user", [demoPatternHit]⟩]⟩

/-- Thresholds 0.75/0.80, LLM disabled, embedding client enabled. -/
def demoCfgEmb : MatcherConfig := ⟨3/4, 4/5, false, true⟩

theorem demoMoveLex_lexical : lexicalMatch "hello" demoMoveLex = (17/20, "p2") := by
  norm_num [lexicalMatch, stageBest, bestFoldT, bestFoldP, demoMoveLex, demoPatternHit]

theorem demoMoveEmb_lexical : lexicalMatch "hello" demoMoveEmb = (0, "") := by
  norm_num [lexicalMatch, stageBest, bestFoldT, bestFoldP, demoMoveEmb, demoPatternEmb]

theorem demoMoveEmb_embedding : embeddingMatch true "hello" demoMoveEmb = (1, "p1") := by
  norm_num [embeddingMatch, stageBest, bestFoldT, bestFoldP, demoMoveEmb, demoPatternEmb,
    embConfOf, clamp01]

/-- C4 counterexample: in the game `[m1, m2]`, move `m2` has an exact lexical
match with confidence `0.85 ≥ 0.75 = cascade_lexical_threshold`, yet
`CascadeMatcher.match` returns stage `"embedding"` for `m1` (whose embedding
stage short-circuited first, at `1 ≥ 0.80`) after two `embed()` calls — not
stage `"lexical"` for `m2` with zero embedding calls, as the claim states. -/
theorem C4_counterexample :
    demoCfgEmb.lexThreshold ≤ (lexicalMatch "hello" demoMoveLex).1 ∧
    (cascadeMatch demoCfgEmb "hello" [demoMoveEmb, demoMoveLex] false).out.stage
      = "embedding" ∧
    (cascadeMatch demoCfgEmb "hello" [demoMoveEmb, demoMoveLex] false).out.move
      = some "m1" ∧
    (cascadeMatch demoCfgEmb "hello" [demoMoveEmb, demoMoveLex] false).embCalls = 2 := by
  have hcalls : embCallsPerMove true demoMoveEmb = 2 := by
    norm_num [embCallsPerMove, patternCount, demoMoveEmb]
  have hcm : cascadeMatch demoCfgEmb "hello" [demoMoveEmb, demoMoveLex] false
      = ⟨{ move := some "m1", score := 1, stage := "embedding" }, 2, 0⟩ := by
    norm_num [cascadeMatch, moveLoop, demoMoveEmb_lexical, demoMoveEmb_embedding,
      demoCfgEmb, hcalls, show demoMoveEmb.id = "m1" from rfl]
  rw [hcm, demoMoveLex_lexical]
  norm_num [demoCfgEmb]

/-- Witness for `C4_lexical_short_circuit`: with `m2` (lexical confidence
0.85 ≥ 0.75) first in the move list, the match is lexical with no
embedding/LLM calls. -/
theorem C4_lexical_short_circuit_witness :
    cascadeMatch demoCfgEmb "hello" [demoMoveLex] false
      = ⟨{ move := some "m2", score := 17/20, stage := "lexical" }, 0, 0⟩ := by
  have h := (C4_lexical_short_circuit demoCfgEmb "hello" false).1 demoMoveLex []
    (by rw [demoMoveLex_lexical]; norm_num [demoCfgEmb])
  rw [h, demoMoveLex_lexical]
  rfl

/-- A match result whose score lies in `[0, 1]`. -/
def OutBounded (o : MatchOut) : Prop := 0 ≤ o.score ∧ o.score ≤ 1

theorem bestFoldP_bounds (keep : Pattern → Bool) (conf : Pattern → ℚ) :
    ∀ (l : List Pattern) (b : ℚ × String), 0 ≤ b.1 → b.1 ≤ 1 →
      (∀ pat ∈ l, conf pat ≤ 1) →
      0 ≤ (bestFoldP keep conf l b).1 ∧ (bestFoldP keep conf l b).1 ≤ 1 := by
  intro l
  induction l with
  | nil => intro b h0 h1 _; exact ⟨h0, h1⟩
  | cons pat rest ih =>
    intro b h0 h1 hc
    by_cases hk : keep pat
    · by_cases hlt : b.1 < conf pat
      · have := ih (conf pat, pat.text) (le_trans h0 (le_of_lt hlt))
          (hc pat (by simp)) (fun q hq => hc q (by simp [hq]))
        simpa [bestFoldP, hk, hlt] using this
      · have := ih b h0 h1 (fun q hq => hc q (by simp [hq]))
        simpa [bestFoldP, hk, hlt] using this
    · have := ih b h0 h1 (fun q hq => hc q (by simp [hq]))
      simpa [bestFoldP, hk] using this

theorem bestFoldT_bounds (keep : Pattern → Bool) (conf : Pattern → ℚ) :
    ∀ (l : List Trigger) (b : ℚ × String), 0 ≤ b.1 → b.1 ≤ 1 →
      (∀ trig ∈ l, ∀ pat ∈ trig.patterns, conf pat ≤ 1) →
      0 ≤ (bestFoldT keep conf l b).1 ∧ (bestFoldT keep conf l b).1 ≤ 1 := by
  intro l
  induction l with
  | nil => intro b h0 h1 _; exact ⟨h0, h1⟩
  | cons trig rest ih =>
    intro b h0 h1 hc
    by_cases hp : (trig.participant == "user" || trig.participant == "assistant") = true
    · have hb' := bestFoldP_bounds keep conf trig.patterns b h0 h1
        (fun q hq => hc trig (by simp) q hq)
      have := ih (bestFoldP keep conf trig.patterns b) hb'.1 hb'.2
        (fun t ht q hq => hc t (by simp [ht]) q hq)
      simpa [bestFoldT, hp] using this
    · have := ih b h0 h1 (fun t ht q hq => hc t (by simp [ht]) q hq)
      simpa [bestFoldT, hp] using this

theorem stageBest_bounds (move : Move) (keep : Pattern → Bool) (conf : Pattern → ℚ)
    (hc : ∀ trig ∈ move.triggers, ∀ pat ∈ trig.patterns, conf pat ≤ 1) :
    0 ≤ (stageBest move keep conf).1 ∧ (stageBest move keep conf).1 ≤ 1 :=
  bestFoldT_bounds keep conf move.triggers (0, "") le_rfl (by norm_num) hc

theorem tokenOverlap_le_one (a b : String) : tokenOverlap a b ≤ 1 := by
  unfold tokenOverlap
  by_cases h : ((lowerTokens a).dedup.isEmpty || (lowerTokens b).dedup.isEmpty) = true
  · simp only [h, if_true]
    norm_num
  · simp only [h, if_false]
    exact min_le_left _ _

theorem embConfOf_le_one (embEnabled : Bool) (text : String) (pat : Pattern) :
    embConfOf embEnabled text pat ≤ 1 := by
  unfold embConfOf
  split
  · exact min_le_left _ _
  · exact tokenOverlap_le_one _ _

theorem lexicalMatch_bounds (text : String) (m : Move) :
    0 ≤ (lexicalMatch text m).1 ∧ (lexicalMatch text m).1 ≤ 1 :=
  stageBest_bounds m _ _ (fun _ _ _ _ => by norm_num)

theorem embeddingMatch_bounds (embEnabled : Bool) (text : String) (m : Move) :
    0 ≤ (embeddingMatch embEnabled text m).1 ∧ (embeddingMatch embEnabled text m).1 ≤ 1 :=
  stageBest_bounds m _ _ (fun _ _ pat _ => embConfOf_le_one embEnabled text pat)

theorem llmMatch_bounds (text : String) (m : Move)
    (h : ∀ trig ∈ m.triggers, ∀ pat ∈ trig.patterns, pat.llmConf text ≤ 1) :
    0 ≤ (llmMatch text m).1 ∧ (llmMatch text m).1 ≤ 1 :=
  stageBest_bounds m _ _ h

theorem moveLoop_bounds (cfg : MatcherConfig) (text : String) :
    ∀ (moves : List Move) (best : Option MatchOut) (calls : ℕ),
      (∀ b, best = some b → OutBounded b) →
      ((∀ out calls', moveLoop cfg text moves best calls = .error (out, calls') →
          OutBounded out) ∧
       (∀ b calls', moveLoop cfg text moves best calls = .ok (some b, calls') →
          OutBounded b)) := by
  intro moves
  induction moves with
  | nil =>
    intro best calls hb
    constructor
    · intro out calls' h
      simp [moveLoop] at h
    · intro b calls' h
      simp [moveLoop] at h
      exact hb b h.1
  | cons m rest ih =>
    intro best calls hb
    by_cases hlex : cfg.lexThreshold ≤ (lexicalMatch text m).1
    · constructor
      · intro out calls' h
        simp only [moveLoop, if_pos hlex, Except.error.injEq, Prod.mk.injEq] at h
        rw [← h.1]
        exact ⟨(lexicalMatch_bounds text m).1, (lexicalMatch_bounds text m).2⟩
      · intro b calls' h
        simp [moveLoop, if_pos hlex] at h
    · by_cases hemb : cfg.embThreshold ≤ (embeddingMatch cfg.embEnabled text m).1
      · constructor
        · intro out calls' h
          simp only [moveLoop, if_neg hlex, if_pos hemb, Except.error.injEq,
            Prod.mk.injEq] at h
          rw [← h.1]
          exact ⟨(embeddingMatch_bounds cfg.embEnabled text m).1,
            (embeddingMatch_bounds cfg.embEnabled text m).2⟩
        · intro b calls' h
          simp [moveLoop, if_neg hlex, if_pos hemb] at h
      · have hcand : OutBounded (stage12Cand cfg text m) := by
          constructor
          · exact le_trans (lexicalMatch_bounds text m).1 (le_max_left _ _)
          · exact max_le (lexicalMatch_bounds text m).2
              (embeddingMatch_bounds cfg.embEnabled text m).2
        have hb' : ∀ b', updateBest (stage12Cand cfg text m) best = some b' →
            OutBounded b' := by
          intro b' hmatch
          rcases updateBest_eq_some hmatch with rfl | hbest
          · exact hcand
          · exact hb b' hbest
        have := ih _ (calls + embCallsPerMove cfg.embEnabled m) hb'
        constructor
        · intro out calls' h
          refine this.1 out calls' ?_
          simpa [moveLoop, if_neg hlex, if_neg hemb] using h
        · intro b calls' h
          refine this.2 b calls' ?_
          simpa [moveLoop, if_neg hlex, if_neg hemb] using h

theorem llmLoop_bounds (text : String) :
    ∀ (moves : List Move) (best : MatchOut) (calls : ℕ),
      OutBounded best →
      (∀ m ∈ moves, ∀ trig ∈ m.triggers, ∀ pat ∈ trig.patterns, pat.llmConf text ≤ 1) →
      OutBounded (llmLoop text moves best calls).1 := by
  intro moves
  induction moves with
  | nil => intro best calls hb _; simpa [llmLoop] using hb
  | cons m rest ih =>
    intro best calls hb hc
    have hm := llmMatch_bounds text m (fun trig ht pat hp => hc m (by simp) trig ht pat hp)
    by_cases hup : best.score < (llmMatch text m).1
    · by_cases hexit : (9 : ℚ)/10 ≤ (llmMatch text m).1
      · simpa [llmLoop, hup, hexit] using ⟨hm.1, hm.2⟩
      · have := ih { move := some m.id, score := (llmMatch text m).1, stage := "llm_semantic" }
          (calls + llmCallsPerMove m) ⟨hm.1, hm.2⟩
          (fun m' hm' => hc m' (by simp [hm']))
        simpa [llmLoop, hup, hexit] using this
    · have := ih best (calls + llmCallsPerMove m) hb (fun m' hm' => hc m' (by simp [hm']))
      simpa [llmLoop, hup] using this

theorem llmLoop_move_isSome (text : String) :
    ∀ (moves : List Move) (best : MatchOut) (calls : ℕ),
      best.move ≠ none → (llmLoop text moves best calls).1.move ≠ none := by
  intro moves
  induction moves with
  | nil => intro best calls hb; simpa [llmLoop] using hb
  | cons m rest ih =>
    intro best calls hb
    by_cases hup : best.score < (llmMatch text m).1
    · by_cases hexit : (9 : ℚ)/10 ≤ (llmMatch text m).1
      · simp [llmLoop, hup, hexit]
      · have := ih { move := some m.id, score := (llmMatch text m).1, stage := "llm_semantic" }
          (calls + llmCallsPerMove m) (by simp)
        simpa [llmLoop, hup, hexit] using this
    · have := ih best (calls + llmCallsPerMove m) hb
      simpa [llmLoop, hup] using this

theorem moveLoop_ok_none (cfg : MatcherConfig) (text : String) :
    ∀ (moves : List Move) (best : Option MatchOut) (calls calls' : ℕ),
      moveLoop cfg text moves best calls = .ok (none, calls') →
      best = none ∧ moves = [] := by
  intro moves
  induction moves with
  | nil =>
    intro best calls calls' h
    simp only [moveLoop, Except.ok.injEq, Prod.mk.injEq] at h
    exact ⟨h.1, rfl⟩
  | cons m rest ih =>
    intro best calls calls' h
    by_cases hlex : cfg.lexThreshold ≤ (lexicalMatch text m).1
    · simp [moveLoop, hlex] at h
    · by_cases hemb : cfg.embThreshold ≤ (embeddingMatch cfg.embEnabled text m).1
      · simp [moveLoop, hlex, hemb] at h
      · have h' := ih _ _ _ (by simpa [moveLoop, hlex, hemb] using h)
        exact absurd h'.1 (updateBest_ne_none _ _)

theorem moveLoop_error_move (cfg : MatcherConfig) (text : String) :
    ∀ (moves : List Move) (best : Option MatchOut) (calls : ℕ) (out : MatchOut)
      (calls' : ℕ),
      moveLoop cfg text moves best calls = .error (out, calls') →
      ∃ id, out.move = some id := by
  intro moves
  induction moves with
  | nil =>
    intro best calls out calls' h
    simp [moveLoop] at h
  | cons m rest ih =>
    intro best calls out calls' h
    by_cases hlex : cfg.lexThreshold ≤ (lexicalMatch text m).1
    · simp only [moveLoop, if_pos hlex, Except.error.injEq, Prod.mk.injEq] at h
      exact ⟨m.id, by rw [← h.1]⟩
    · by_cases hemb : cfg.embThreshold ≤ (embeddingMatch cfg.embEnabled text m).1
      · simp only [moveLoop, if_neg hlex, if_pos hemb, Except.error.injEq,
          Prod.mk.injEq] at h
        exact ⟨m.id, by rw [← h.1]⟩
      · exact ih _ _ out calls' (by simpa [moveLoop, hlex, hemb] using h)

theorem moveLoop_ok_some_move (cfg : MatcherConfig) (text : String) :
    ∀ (moves : List Move) (best : Option MatchOut) (calls : ℕ) (b : MatchOut)
      (calls' : ℕ),
      (∀ b0, best = some b0 → ∃ id, b0.move = some id) →
      moveLoop cfg text moves best calls = .ok (some b, calls') →
      ∃ id, b.move = some id := by
  intro moves
  induction moves with
  | nil =>
    intro best calls b calls' hb h
    simp only [moveLoop, Except.ok.injEq, Prod.mk.injEq] at h
    exact hb b h.1
  | cons m rest ih =>
    intro best calls b calls' hb h
    by_cases hlex : cfg.lexThreshold ≤ (lexicalMatch text m).1
    · simp [moveLoop, hlex] at h
    · by_cases hemb : cfg.embThreshold ≤ (embeddingMatch cfg.embEnabled text m).1
      · simp [moveLoop, hlex, hemb] at h
      · refine ih _ _ b calls' ?_ (by simpa [moveLoop, hlex, hemb] using h)
        intro b0 hmatch
        rcases updateBest_eq_some hmatch with rfl | hbest
        · exact ⟨m.id, rfl⟩
        · exact hb b0 hbest

/-- C6 (amended): `CascadeMatcher.match` always returns a result (never
raises) whose score lies in `[0, 1]` — for the LLM stage under the
assumption that LLM-reported confidences respect their declared `[0,1]`
schema range, since `match` applies them without clamping.  When the game
has no moves the result is the null result (`move = None`, score 0, stage
`"none"`); when moves exist but none matches, the result instead carries the
first move tried with score 0 — `move = None` occurs **only** for an empty
move list. -/
theorem C6_score_range_and_null_move (cfg : MatcherConfig) (text : String)
    (moves : List Move) (hasCtx : Bool)
    (hllm : ∀ m ∈ moves, ∀ trig ∈ m.triggers, ∀ pat ∈ trig.patterns,
      pat.llmConf text ≤ 1) :
    (0 ≤ (cascadeMatch cfg text moves hasCtx).out.score ∧
     (cascadeMatch cfg text moves hasCtx).out.score ≤ 1) ∧
    (moves = [] → (cascadeMatch cfg text moves hasCtx).out
        = { move := none, score := 0, stage := "none" }) ∧
    ((cascadeMatch cfg text moves hasCtx).out.move = none → moves = []) := by
  rcases hml : moveLoop cfg text moves none 0 with ⟨out, ecalls⟩ | ⟨b, ecalls⟩
  · -- short-circuit return
    have hcm : cascadeMatch cfg text moves hasCtx = ⟨out, ecalls, 0⟩ := by
      simp [cascadeMatch, hml]
    have hbnd := (moveLoop_bounds cfg text moves none 0 (by simp)).1 out ecalls hml
    obtain ⟨id, hid⟩ := moveLoop_error_move cfg text moves none 0 out ecalls hml
    refine ⟨by rw [hcm]; exact hbnd, ?_, ?_⟩
    · rintro rfl
      simp [moveLoop] at hml
    · rw [hcm]
      intro h
      simp [hid] at h
  · cases b with
    | none =>
      have hcm : cascadeMatch cfg text moves hasCtx
          = ⟨{ move := none, score := 0, stage := "none" }, ecalls, 0⟩ := by
        simp [cascadeMatch, hml]
      have hmv := moveLoop_ok_none cfg text moves none 0 ecalls hml
      refine ⟨by rw [hcm]; norm_num [OutBounded], fun _ => by rw [hcm], fun _ => hmv.2⟩
    | some b =>
      have hbnd := (moveLoop_bounds cfg text moves none 0 (by simp)).2 b ecalls hml
      obtain ⟨id, hid⟩ := moveLoop_ok_some_move cfg text moves none 0 b ecalls
        (by simp) hml
      have hmoves : moves ≠ [] := by
        rintro rfl
        simp [moveLoop] at hml
      by_cases hllmrun : (cfg.llmEnabled && hasCtx && decide (b.score < 17/20)) = true
      · have hcm : cascadeMatch cfg text moves hasCtx
            = ⟨(llmLoop text moves b 0).1, ecalls, (llmLoop text moves b 0).2⟩ := by
          simp only [cascadeMatch, hml]
          rw [if_pos hllmrun]
        have hb := llmLoop_bounds text moves b 0 hbnd
          (fun m hm trig ht pat hp => hllm m hm trig ht pat hp)
        have hmv := llmLoop_move_isSome text moves b 0 (by simp [hid])
        refine ⟨by rw [hcm]; exact hb, fun h => absurd h hmoves, ?_⟩
        rw [hcm]
        intro h
        exact absurd h hmv
      · have hcm : cascadeMatch cfg text moves hasCtx = ⟨b, ecalls, 0⟩ := by
          simp only [cascadeMatch, hml]
          rw [if_neg hllmrun]
        refine ⟨by rw [hcm]; exact hbnd, fun h => absurd h hmoves, ?_⟩
        rw [hcm]
        intro h
        simp [hid] at h

/-- A pattern sharing no `[a-z]+` token with the input `"123"` (which has
none at all), regex missing, similarity 0. -/
def demoPatternNoMatch : Pattern := ⟨"hello", fun _ => false, fun _ => 0, fun _ => 0⟩

/-- A one-move game in which nothing matches the input `"123"`. -/
def demoMoveNoMatch : Move := ⟨"m0", [⟨"user", [demoPatternNoMatch]⟩]⟩

/-- Thresholds 0.75/0.80 with both the LLM stage and the embedding client
disabled (offline `token_overlap` fallback). -/
def demoCfgOffline : MatcherConfig := ⟨3/4, 4/5, false, false⟩

/-- C6 counterexample: on the one-move game where nothing matches the input
`"123"` (its token set is empty, so `token_overlap` is 0 and the regex does
not hit), `CascadeMatcher.match` returns score 0 — but with `move = m0`, the
first move tried, **not** `move = None` as the claim states. -/
theorem C6_counterexample :
    (cascadeMatch demoCfgOffline "123" [demoMoveNoMatch] false).out.score = 0 ∧
    (cascadeMatch demoCfgOffline "123" [demoMoveNoMatch] false).out.move = some "m0" ∧
    ¬ (cascadeMatch demoCfgOffline "123" [demoMoveNoMatch] false).out.move = none := by
  have htok : tokenOverlap "123" "hello" = 0 := by
    have : lowerTokens "123" = [] := by decide
    simp [tokenOverlap, this]
  have hlex : lexicalMatch "123" demoMoveNoMatch = (0, "") := by
    norm_num [lexicalMatch, stageBest, bestFoldT, bestFoldP, demoMoveNoMatch,
      demoPatternNoMatch]
  have hemb : embeddingMatch false "123" demoMoveNoMatch = (0, "") := by
    norm_num [embeddingMatch, stageBest, bestFoldT, bestFoldP, demoMoveNoMatch,
      demoPatternNoMatch, embConfOf, htok]
  have hcm : cascadeMatch demoCfgOffline "123" [demoMoveNoMatch] false
      = ⟨{ move := some "m0", score := 0, stage := "lexical" }, 0, 0⟩ := by
    norm_num [cascadeMatch, moveLoop, hlex, hemb, demoCfgOffline, embCallsPerMove,
      updateBest, stage12Cand, show demoMoveNoMatch.id = "m0" from rfl]
  rw [hcm]
  refine ⟨rfl, rfl, by simp⟩

/-- Witness for `C6_score_range_and_null_move`: instantiated at the concrete
offline one-move game (LLM confidences are the constant 0, discharging the
schema-range hypothesis), the score is within `[0,1]`. -/
theorem C6_score_range_witness :
    0 ≤ (cascadeMatch demoCfgOffline "123" [demoMoveNoMatch] false).out.score ∧
    (cascadeMatch demoCfgOffline "123" [demoMoveNoMatch] false).out.score ≤ 1 :=
  (C6_score_range_and_null_move demoCfgOffline "123" [demoMoveNoMatch] false
    (by intro m hm trig ht pat hp
        rcases List.mem_singleton.mp hm with rfl
        simp [demoMoveNoMatch] at ht
        rcases ht with rfl
        simp [demoMoveNoMatch] at hp ⊢
        rcases hp with rfl
        norm_num [demoPatternNoMatch])).1

/-! ## Matcher construction (`CascadeMatcher.__init__` + `create_llm_client`)

`CascadeMatcher.__init__` (matcher.py lines 410-448): with
`enable_llm_semantic_matching` on, a falsy `config.openai_api_key`
(`None` or `""`) raises `ValueError` before any client is created; otherwise
`create_llm_client` is called with `allow_mock_fallback=False`.
`create_llm_client` (llm_client.py lines 420-476) returns a mock only for an
explicit `use_mock` or one of the designated test keys; with no key or a
missing `openai` package and `allow_mock_fallback=False` it raises. -/

/-- Which LLM client `create_llm_client` built. -/
inductive LLMClientKind
  | openai (model : String)
  | mock
  deriving Repr, DecidableEq

/-- `create_llm_client` (llm_client.py lines 420-476).  `apiKey = none`
models an unset key; the Python falsiness test `if not api_key` also treats
`""` as unset. -/
def createLLMClient (apiKey : Option String) (model : String)
    (useMock allowMockFallback openaiAvailable : Bool) :
    Except String LLMClientKind :=
  if useMock then .ok .mock
  else if apiKey = some "test" ∨ apiKey = some "test-key" ∨ apiKey = some "sk-test" then
    .ok .mock
  else if apiKey = none ∨ apiKey = some "" then
    if allowMockFallback then .ok .mock
    else .error "ValueError: OpenAI API key required for LLM semantic matching"
  else if ¬ openaiAvailable then
    if allowMockFallback then .ok .mock
    else .error "ImportError: openai package required for LLM semantic matching"
  else .ok (.openai model)

/-- What `CascadeMatcher.__init__` stores: the LLM matcher, or `none` when
the LLM stage is disabled (embeddings-only cascade). -/
structure CascadeInit where
  llmMatcher : Option LLMClientKind
  deriving Repr, DecidableEq

/-- `CascadeMatcher.__init__` (matcher.py lines 410-448): explicit
`ValueError` when the LLM stage is enabled without an API key; otherwise the
client factory runs in strict mode (`allow_mock_fallback=False`). -/
def cascadeMatcherInit (enableLLM : Bool) (apiKey : Option String) (model : String)
    (openaiAvailable : Bool) : Except String CascadeInit :=
  if enableLLM then
    if apiKey = none ∨ apiKey = some "" then
      .error "ValueError: LLM semantic matching enabled but OPENAI_API_KEY not set"
    else
      match createLLMClient apiKey model false false openaiAvailable with
      | .error e => .error e
      | .ok c => .ok { llmMatcher := some c }
  else .ok { llmMatcher := none }

/-- C7: constructing the cascade matcher with LLM semantic matching enabled
but no OpenAI API key configured (unset or empty) fails at construction time
with the explicit `ValueError`; in particular no matcher object of any shape
is produced — neither one holding a mock client nor an embeddings-only one. -/
theorem C7_no_key_is_constructor_error (apiKey : Option String) (model : String)
    (openaiAvailable : Bool) (hkey : apiKey = none ∨ apiKey = some "") :
    cascadeMatcherInit true apiKey model openaiAvailable
      = .error "ValueError: LLM semantic matching enabled but OPENAI_API_KEY not set" ∧
    ∀ c : CascadeInit, cascadeMatcherInit true apiKey model openaiAvailable ≠ .ok c := by
  have h : cascadeMatcherInit true apiKey model openaiAvailable
      = .error "ValueError: LLM semantic matching enabled but OPENAI_API_KEY not set" := by
    simp [cascadeMatcherInit, hkey]
  exact ⟨h, fun c hc => by rw [h] at hc; exact Except.noConfusion hc⟩

/-- Witness for `C7_no_key_is_constructor_error`: the unset-key case. -/
theorem C7_no_key_is_constructor_error_witness :
    cascadeMatcherInit true none "gpt-4o-mini" true
      = .error "ValueError: LLM semantic matching enabled but OPENAI_API_KEY not set" :=
  (C7_no_key_is_constructor_error none "gpt-4o-mini" true (Or.inl rfl)).1

/-! ## LLM stage error handling (`LLMSemanticMatcher.match`)

matcher.py lines 273-326: the completion call and result processing sit in a
`try`; any exception produces the zero-confidence
`"llm_semantic_error"` result instead of propagating.  The completion
outcome is the explicit argument: `.ok` carries the parsed structured
content (its optional `confidence`/`reasoning` fields correspond to
`result.content.get(..)`), `.error` the exception's message. -/

/-- Parsed content and cost of a successful LLM completion. -/
structure Completion where
  confidence : Option ℚ
  reasoning : Option String
  cost : ℚ
  deriving Repr, DecidableEq

/-- The dict `LLMSemanticMatcher.match` returns. -/
structure LLMStageOut where
  confidence : ℚ
  reasoning : String
  cost : ℚ
  stage : String
  deriving Repr, DecidableEq

/-- `LLMSemanticMatcher.match` (matcher.py lines 273-326) as a function of
the completion call's outcome.  Total by construction: every outcome,
including an exception, yields a result dict. -/
def llmSemanticMatch (callResult : Except String Completion) : LLMStageOut :=
  match callResult with
  | .ok r =>
    { confidence := r.confidence.getD 0, reasoning := r.reasoning.getD "",
      cost := r.cost, stage := "llm_semantic" }
  | .error e =>
    { confidence := 0, reasoning := "LLM error: " ++ e, cost := 0,
      stage := "llm_semantic_error" }

/-- C8: whenever the LLM completion call raised (any exception message `e`),
`LLMSemanticMatcher.match` returns the zero-confidence
`"llm_semantic_error"` result — `llmSemanticMatch` is a total function into
result dicts, so the exception never propagates to `CascadeMatcher.match`. -/
theorem C8_llm_error_degrades_to_zero (e : String) :
    llmSemanticMatch (.error e)
      = { confidence := 0, reasoning := "LLM error: " ++ e, cost := 0,
          stage := "llm_semantic_error" } ∧
    (llmSemanticMatch (.error e)).confidence = 0 := ⟨rfl, rfl⟩

/-! ## Awaiting-slot routing (`lgdl/runtime/engine.py`, `LGDLRuntime.process_turn`)

When the loaded state carries `awaiting_slot_for_move` naming an existing
move, `process_turn` skips matching entirely: it sets `score = 1.0`,
`params = {}` and routes to that move (engine.py lines 153-160), so
`self.matcher.match` is never reached (recorded as `matcherCalls = 0`).
Negotiation cannot trigger (`score < threshold` is false for thresholds
`≤ 1`; were a threshold above 1, line 216 would reference the unassigned
local `match` — a `NameError`, kept in the model).  The slot block then
fills at most the awaited slot — the combined outcome of extraction
(`extract_slot_from_input`) and validation (`validate_slot_value`) for the
user's input is the oracle `extractedValid` — prompts for the first still
missing slot, or, with all required slots filled, runs the move's actions and
builds the result.  On that last path the cascade runtime reads the local
`match_stage` (engine.py line 406), which was only ever assigned inside the
skipped matching branch — an `UnboundLocalError`.

Slot defaults and non-required slots are not modelled (the claims do not
involve them): `slots` lists the required slot names in definition order. -/

/-- The fields of a compiled move the awaiting-slot path reads. -/
structure EngMove where
  id : String
  threshold : ℚ
  slots : List String
  slotPrompts : List (String × String)

/-- `mv.get("slot_prompts", {}).get(slot_name, f"Please provide {slot_name}")`
(engine.py line 310). -/
def promptFor (mv : EngMove) (slotName : String) : String :=
  match mv.slotPrompts.lookup slotName with
  | some p => p
  | none => "Please provide " ++ slotName

/-- The per-turn result of the awaiting-slot path, plus how many times
`self.matcher.match` ran during the call. -/
structure AwaitTurnOut where
  moveId : String
  confidence : ℚ
  response : String
  awaitingSlot : Option String
  matcherCalls : ℕ
  deriving Repr, DecidableEq

/-- The slot-filling loop's effect on the stored slots (engine.py lines
271-301): only the currently awaited slot can gain a value, and only when
extraction and validation both succeeded (`extractedValid`). -/
def filledAfterExtraction (mv : EngMove) (awaitingName : Option String)
    (filled : List String) (extractedValid : Option String) : List String :=
  match awaitingName, extractedValid with
  | some s, some _ =>
    if mv.slots.contains s && !(filled.contains s) then filled ++ [s] else filled
  | _, _ => filled

/-- The awaiting-slot path of `LGDLRuntime.process_turn` (engine.py lines
148-160, 212-218, 259-328, 354-447), for a state whose marker names the
existing move `mv` and awaits `awaitingName`; `filled` are the slots already
stored for `(conversation, move)`; `moveResponse` abstracts the rendered
action output of the final turn. -/
def processAwaitingTurn (useCascade negotiationEnabled hasClarify : Bool)
    (mv : EngMove) (awaitingName : Option String) (filled : List String)
    (extractedValid : Option String) (moveResponse : String) :
    Except String AwaitTurnOut :=
  let score : ℚ := 1
  if negotiationEnabled ∧ score < mv.threshold ∧ hasClarify then
    .error "NameError: match"
  else
    match mv.slots.filter
        (fun s => !((filledAfterExtraction mv awaitingName filled
          extractedValid).contains s)) with
    | s :: _ =>
      .ok { moveId := mv.id, confidence := score, response := promptFor mv s,
            awaitingSlot := some s, matcherCalls := 0 }
    | [] =>
      if useCascade then .error "UnboundLocalError: match_stage"
      else
        .ok { moveId := mv.id, confidence := score, response := moveResponse,
              awaitingSlot := none, matcherCalls := 0 }

/-- The slot-filling demo move: `report_pain`, threshold 0.75, required slots
`location` then `severity`. -/
def demoSlotMove : EngMove :=
  ⟨"report_pain", 3/4, ["location", "severity"],
    [("location", "Where does it hurt?"), ("severity", "How bad is it?")]⟩

/-- C5: with an awaiting-slot marker naming an existing move, the next
`process_turn` routes to that move at forced confidence 1.0 with zero matcher
invocations, and under the default two-stage runtime (`use_cascade = false`)
returns a normal per-turn result (the next slot prompt or the move's
response).  Under the cascade runtime, however, the turn that completes the
last required slot crashes with `UnboundLocalError` on `match_stage`
(engine.py line 406) instead of returning the move's response — the concrete
failing run: move `report_pain` awaiting `severity` with `location` already
filled, user input supplying a valid `severity`. -/
theorem C5_awaiting_slot_routing :
    (∀ (negE hasC : Bool) (mv : EngMove) (awaitingName : Option String)
       (filled : List String) (extractedValid : Option String) (resp : String),
       mv.threshold ≤ 1 →
       ∃ out, processAwaitingTurn false negE hasC mv awaitingName filled
           extractedValid resp = .ok out ∧
         out.confidence = 1 ∧ out.moveId = mv.id ∧ out.matcherCalls = 0) ∧
    processAwaitingTurn true true true demoSlotMove (some "severity") ["location"]
        (some "8") "resp"
      = .error "UnboundLocalError: match_stage" := by
  constructor
  · intro negE hasC mv awaitingName filled extractedValid resp hthr
    have hneg : ¬ (negE = true ∧ (1:ℚ) < mv.threshold ∧ hasC = true) := by
      rintro ⟨_, hlt, _⟩
      exact absurd hthr (not_le.mpr hlt)
    rcases hmiss : mv.slots.filter
        (fun s => !((filledAfterExtraction mv awaitingName filled
          extractedValid).contains s)) with _ | ⟨s, rest⟩
    · exact ⟨{ moveId := mv.id, confidence := 1, response := resp,
               awaitingSlot := none, matcherCalls := 0 },
        by simp only [processAwaitingTurn, if_neg hneg, hmiss]; rfl, rfl, rfl, rfl⟩
    · exact ⟨{ moveId := mv.id, confidence := 1, response := promptFor mv s,
               awaitingSlot := some s, matcherCalls := 0 },
        by simp only [processAwaitingTurn, if_neg hneg, hmiss], rfl, rfl, rfl⟩
  · have hmiss : demoSlotMove.slots.filter
        (fun s => !((filledAfterExtraction demoSlotMove (some "severity") ["location"]
          (some "8")).contains s)) = [] := by
      decide
    have hneg : ¬ (True ∧ (1:ℚ) < demoSlotMove.threshold ∧ True) := by
      norm_num [demoSlotMove]
    simp only [processAwaitingTurn, if_neg hneg, hmiss]
    rfl

/-- Witness for `C5_awaiting_slot_routing`: the first still-awaiting turn of
`report_pain` under the default runtime returns the `location` prompt at
confidence 1.0 without invoking the matcher. -/
theorem C5_awaiting_slot_routing_witness :
    ∃ out, processAwaitingTurn false true true demoSlotMove (some "location") [] none "r"
        = .ok out ∧ out.confidence = 1 ∧ out.moveId = "report_pain" ∧
        out.matcherCalls = 0 := by
  obtain ⟨out, h1, h2, h3, h4⟩ := C5_awaiting_slot_routing.1 true true demoSlotMove
    (some "location") [] none "r" (by norm_num [demoSlotMove])
  exact ⟨out, h1, h2, by rw [h3]; rfl, h4⟩

/-! ## Input enrichment (`NegotiationLoop._enrich_input`)

negotiation.py lines 319-364: starting from the original input, append each
truthy param value not already contained (case-insensitively) in the
original and not previously appended; after each append, stop if the length
exceeds `MAX_ENRICHED_LENGTH = 2048`; finally normalize whitespace with
`" ".join(enriched.split())`.  Params are an insertion-ordered dict, modelled
as an association list; values are strings (`str(val)` applied, falsy values
skipped — for strings, exactly `""`). -/

/-- `str.split()`-style whitespace splitting, accumulator-style. -/
def wordsAux : List Char → List Char → List (List Char)
  | [], cur => if cur.isEmpty then [] else [cur.reverse]
  | c :: rest, cur =>
    if c.isWhitespace then
      (if cur.isEmpty then wordsAux rest [] else cur.reverse :: wordsAux rest [])
    else wordsAux rest (c :: cur)

/-- `" ".join(words)`. -/
def joinWords : List (List Char) → List Char
  | [] => []
  | [w] => w
  | w :: ws => w ++ ' ' :: joinWords ws

/-- `" ".join(s.split())`. -/
def normalizeWS (s : String) : String := String.mk (joinWords (wordsAux s.data []))

/-- Python's case-insensitive containment `needle.lower() in hay.lower()`. -/
def ciContains (hay needle : String) : Bool :=
  isSubL (toLowerStr needle).data (toLowerStr hay).data

/-- The append loop of `_enrich_input` (before whitespace normalization):
`e` is the running `enriched` string, `app` the lower-cased `appended` set. -/
def enrichCore (original : String) : List (String × String) → String → List String → String
  | [], e, _ => e
  | (_, v) :: rest, e, app =>
    if v = "" then enrichCore original rest e app
    else if ciContains original v || app.contains (toLowerStr v) then
      enrichCore original rest e app
    else if 2048 < (e ++ " " ++ v).length then e ++ " " ++ v
    else enrichCore original rest (e ++ " " ++ v) (toLowerStr v :: app)

/-- `NegotiationLoop._enrich_input`. -/
def enrichInput (original : String) (params : List (String × String)) : String :=
  normalizeWS (enrichCore original params original [])

/-- The values `enrichCore` actually appends, in order. -/
def pickedVals (original : String) : List (String × String) → String → List String → List String
  | [], _, _ => []
  | (_, v) :: rest, e, app =>
    if v = "" then pickedVals original rest e app
    else if ciContains original v || app.contains (toLowerStr v) then
      pickedVals original rest e app
    else if 2048 < (e ++ " " ++ v).length then [v]
    else v :: pickedVals original rest (e ++ " " ++ v) (toLowerStr v :: app)

/-- Concatenation of appended values, each preceded by the separating space. -/
def glue : List String → String
  | [] => ""
  | v :: rest => " " ++ v ++ glue rest

/-- Largest param-value length (for the corrected length bound). -/
def maxValLen (ps : List (String × String)) : ℕ :=
  (ps.map (fun p => p.2.length)).foldr max 0

theorem enrichCore_cons (original k v : String) (rest : List (String × String))
    (e : String) (app : List String) :
    enrichCore original ((k, v) :: rest) e app
      = if v = "" then enrichCore original rest e app
        else if ciContains original v || app.contains (toLowerStr v) then
          enrichCore original rest e app
        else if 2048 < (e ++ " " ++ v).length then e ++ " " ++ v
        else enrichCore original rest (e ++ " " ++ v) (toLowerStr v :: app) := rfl

theorem pickedVals_cons (original k v : String) (rest : List (String × String))
    (e : String) (app : List String) :
    pickedVals original ((k, v) :: rest) e app
      = if v = "" then pickedVals original rest e app
        else if ciContains original v || app.contains (toLowerStr v) then
          pickedVals original rest e app
        else if 2048 < (e ++ " " ++ v).length then [v]
        else v :: pickedVals original rest (e ++ " " ++ v) (toLowerStr v :: app) := rfl

theorem enrichCore_eq_glue (original : String) :
    ∀ (ps : List (String × String)) (e : String) (app : List String),
      enrichCore original ps e app = e ++ glue (pickedVals original ps e app) := by
  intro ps
  induction ps with
  | nil => intro e app; simp [enrichCore, pickedVals, glue, String.append_empty]
  | cons p rest ih =>
    intro e app
    obtain ⟨k, v⟩ := p
    by_cases hv : v = ""
    · rw [enrichCore_cons, pickedVals_cons, if_pos hv, if_pos hv]
      exact ih e app
    · by_cases hskip : (ciContains original v || app.contains (toLowerStr v)) = true
      · rw [enrichCore_cons, pickedVals_cons, if_neg hv, if_neg hv, if_pos hskip,
          if_pos hskip]
        exact ih e app
      · by_cases hcap : 2048 < (e ++ " " ++ v).length
        · rw [enrichCore_cons, pickedVals_cons, if_neg hv, if_neg hv, if_neg hskip,
            if_neg hskip, if_pos hcap, if_pos hcap]
          show e ++ " " ++ v = e ++ (" " ++ v ++ glue [])
          rw [show glue [] = "" from rfl, String.append_empty, String.append_assoc]
        · rw [enrichCore_cons, pickedVals_cons, if_neg hv, if_neg hv, if_neg hskip,
            if_neg hskip, if_neg hcap, if_neg hcap]
          rw [ih (e ++ " " ++ v) (toLowerStr v :: app)]
          simp [glue, String.append_assoc]

theorem pickedVals_props (original : String) :
    ∀ (ps : List (String × String)) (e : String) (app : List String),
      (∀ v ∈ pickedVals original ps e app,
        v ≠ "" ∧ ciContains original v = false ∧ toLowerStr v ∉ app) ∧
      ((pickedVals original ps e app).map toLowerStr).Nodup ∧
      List.Sublist (pickedVals original ps e app) (ps.map Prod.snd) := by
  intro ps
  induction ps with
  | nil => intro e app; simp [pickedVals]
  | cons p rest ih =>
    intro e app
    obtain ⟨k, v⟩ := p
    by_cases hv : v = ""
    · rw [pickedVals_cons, if_pos hv]
      refine ⟨(ih e app).1, (ih e app).2.1, ?_⟩
      exact .cons _ (ih e app).2.2
    · by_cases hskip : (ciContains original v || app.contains (toLowerStr v)) = true
      · rw [pickedVals_cons, if_neg hv, if_pos hskip]
        refine ⟨(ih e app).1, (ih e app).2.1, .cons _ (ih e app).2.2⟩
      · have hskip' := hskip
        simp only [Bool.or_eq_true, not_or, Bool.not_eq_true] at hskip'
        have hvprops : v ≠ "" ∧ ciContains original v = false ∧ toLowerStr v ∉ app := by
          refine ⟨hv, hskip'.1, ?_⟩
          intro hmem
          have : app.contains (toLowerStr v) = true := List.elem_eq_true_of_mem hmem
          rw [this] at hskip'
          exact Bool.noConfusion hskip'.2
        by_cases hcap : 2048 < (e ++ " " ++ v).length
        · rw [pickedVals_cons, if_neg hv, if_neg hskip, if_pos hcap]
          refine ⟨?_, by simp, ?_⟩
          · intro w hw
            rcases List.mem_singleton.mp hw with rfl
            exact hvprops
          · exact List.cons_sublist_cons.mpr (List.nil_sublist (rest.map Prod.snd))
        · rw [pickedVals_cons, if_neg hv, if_neg hskip, if_neg hcap]
          have hrec := ih (e ++ " " ++ v) (toLowerStr v :: app)
          refine ⟨?_, ?_, ?_⟩
          · intro w hw
            rcases List.mem_cons.mp hw with rfl | hw
            · exact hvprops
            · obtain ⟨h1, h2, h3⟩ := hrec.1 w hw
              exact ⟨h1, h2, fun hmem => h3 (by simp [hmem])⟩
          · simp only [List.map_cons, List.nodup_cons]
            refine ⟨?_, hrec.2.1⟩
            intro hmem
            obtain ⟨w, hw, hweq⟩ := List.mem_map.mp hmem
            have h3 := (hrec.1 w hw).2.2
            rw [hweq] at h3
            exact h3 (List.mem_cons_self _ _)
          · simpa using (hrec.2.2).cons₂ v

theorem maxValLen_cons (k v : String) (rest : List (String × String)) :
    maxValLen ((k, v) :: rest) = max v.length (maxValLen rest) := rfl

theorem enrichCore_length_le (original : String) :
    ∀ (ps : List (String × String)) (e : String) (app : List String),
      (enrichCore original ps e app).length ≤ max e.length 2048 + 1 + maxValLen ps := by
  intro ps
  induction ps with
  | nil =>
    intro e app
    calc (enrichCore original [] e app).length = e.length := by simp [enrichCore]
      _ ≤ max e.length 2048 := le_max_left _ _
      _ ≤ max e.length 2048 + 1 + maxValLen [] := by omega
  | cons p rest ih =>
    intro e app
    obtain ⟨k, v⟩ := p
    have hmono : maxValLen rest ≤ maxValLen ((k, v) :: rest) := by
      rw [maxValLen_cons]; exact le_max_right _ _
    have hlen : (e ++ " " ++ v).length = e.length + 1 + v.length := by
      rw [String.length_append, String.length_append,
        show (" " : String).length = 1 from rfl]
    by_cases hv : v = ""
    · rw [enrichCore_cons, if_pos hv]
      calc (enrichCore original rest e app).length
          ≤ max e.length 2048 + 1 + maxValLen rest := ih e app
        _ ≤ max e.length 2048 + 1 + maxValLen ((k, v) :: rest) := by omega
    · by_cases hskip : (ciContains original v || app.contains (toLowerStr v)) = true
      · rw [enrichCore_cons, if_neg hv, if_pos hskip]
        calc (enrichCore original rest e app).length
            ≤ max e.length 2048 + 1 + maxValLen rest := ih e app
          _ ≤ max e.length 2048 + 1 + maxValLen ((k, v) :: rest) := by omega
      · by_cases hcap : 2048 < (e ++ " " ++ v).length
        · rw [enrichCore_cons, if_neg hv, if_neg hskip, if_pos hcap]
          have hvle : v.length ≤ maxValLen ((k, v) :: rest) := by
            rw [maxValLen_cons]; exact le_max_left _ _
          have hele : e.length ≤ max e.length 2048 := le_max_left _ _
          omega
        · rw [enrichCore_cons, if_neg hv, if_neg hskip, if_neg hcap]
          have hle : (e ++ " " ++ v).length ≤ 2048 := le_of_not_lt hcap
          calc (enrichCore original rest (e ++ " " ++ v) (toLowerStr v :: app)).length
              ≤ max (e ++ " " ++ v).length 2048 + 1 + maxValLen rest := ih _ _
            _ = 2048 + 1 + maxValLen rest := by rw [max_eq_right hle]
            _ ≤ max e.length 2048 + 1 + maxValLen ((k, v) :: rest) := by
                have := le_max_right e.length 2048
                omega

theorem joinWords_cons_length (w : List Char) (ws : List (List Char)) :
    (joinWords (w :: ws)).length ≤ w.length + 1 + (joinWords ws).length := by
  cases ws with
  | nil => simp [joinWords]
  | cons w' ws' =>
    simp only [joinWords, List.length_append, List.length_cons]
    omega

theorem wordsAux_join_length :
    ∀ (l cur : List Char), (joinWords (wordsAux l cur)).length ≤ l.length + cur.length := by
  intro l
  induction l with
  | nil =>
    intro cur
    by_cases hc : cur.isEmpty
    · simp [wordsAux, hc, joinWords]
    · simp [wordsAux, hc, joinWords]
  | cons c rest ih =>
    intro cur
    by_cases hws : c.isWhitespace
    · by_cases hc : cur.isEmpty
      · rw [show wordsAux (c :: rest) cur = wordsAux rest [] by simp [wordsAux, hws, hc]]
        have h := ih []
        simp only [List.length_nil, Nat.add_zero] at h
        simp only [List.length_cons]
        omega
      · rw [show wordsAux (c :: rest) cur = cur.reverse :: wordsAux rest [] by
            simp [wordsAux, hws, hc]]
        have hstep := joinWords_cons_length cur.reverse (wordsAux rest [])
        have h := ih []
        simp only [List.length_nil, Nat.add_zero] at h
        simp only [List.length_reverse] at hstep
        simp only [List.length_cons]
        omega
    · rw [show wordsAux (c :: rest) cur = wordsAux rest (c :: cur) by
          simp [wordsAux, hws]]
      have h := ih (c :: cur)
      simp only [List.length_cons] at h ⊢
      omega

theorem normalizeWS_length_le (s : String) : (normalizeWS s).length ≤ s.length := by
  have h := wordsAux_join_length s.data []
  simp only [List.length_nil, Nat.add_zero] at h
  exact h

/-- C9 (amended): the enriched input is the whitespace-normalization of the
original input followed by a subsequence of the param values, each non-empty,
none contained case-insensitively in the original, no two equal after
lower-casing (appended at most once).  The 2048 cap, however, is checked only
**after** appending: the loop stops once the length exceeds 2048, so the
result may exceed the cap — by up to one value's length plus one — and an
original longer than 2048 characters is never truncated at all.  The length
is bounded by `max(len(original), 2048) + 1 + max value length`. -/
theorem C9_enrich_input (original : String) (params : List (String × String)) :
    (enrichInput original params
        = normalizeWS (original ++ glue (pickedVals original params original []))) ∧
    (∀ v ∈ pickedVals original params original [],
      v ≠ "" ∧ ciContains original v = false) ∧
    ((pickedVals original params original []).map toLowerStr).Nodup ∧
    List.Sublist (pickedVals original params original []) (params.map Prod.snd) ∧
    (enrichInput original params).length
      ≤ max original.length 2048 + 1 + maxValLen params := by
  obtain ⟨hmem, hnodup, hsub⟩ := pickedVals_props original params original []
  refine ⟨by rw [enrichInput, enrichCore_eq_glue], ?_, hnodup, hsub, ?_⟩
  · intro v hv
    exact ⟨(hmem v hv).1, (hmem v hv).2.1⟩
  · calc (enrichInput original params).length
        ≤ (enrichCore original params original []).length :=
          normalizeWS_length_le _
      _ ≤ max original.length 2048 + 1 + maxValLen params :=
          enrichCore_length_le original params original []

/-- Witness for `C9_enrich_input`: on a concrete call the dedup clause of
the theorem applies to the appended value `"chest"` (membership hypothesis
discharged by `decide`). -/
theorem C9_enrich_input_witness :
    "chest" ≠ "" ∧ ciContains "I have pain" "chest" = false :=
  (C9_enrich_input "I have pain" [("location", "chest")]).2.1 "chest" (by decide)

/-- A 2100-character param value. -/
def bigVal : String := String.mk (List.replicate 2100 'b')

theorem bigVal_toLower : toLowerStr bigVal = bigVal := by
  show String.mk (bigVal.data.map lowerChar) = bigVal
  rw [show bigVal.data = List.replicate 2100 'b' from rfl, List.map_replicate,
    show lowerChar 'b' = 'b' from rfl]
  rfl

theorem wordsAux_replicate_b :
    ∀ (n : ℕ) (cur : List Char),
      wordsAux (List.replicate (n + 1) 'b') cur
        = [cur.reverse ++ List.replicate (n + 1) 'b'] := by
  intro n
  induction n with
  | zero =>
    intro cur
    rw [show List.replicate 1 'b' = ['b'] from rfl]
    rw [show wordsAux ['b'] cur = wordsAux [] ('b' :: cur) from rfl]
    rw [show wordsAux [] ('b' :: cur) = [('b' :: cur).reverse] from rfl]
    rw [List.reverse_cons]
  | succ n ihn =>
    intro cur
    rw [List.replicate_succ]
    rw [show wordsAux ('b' :: List.replicate (n + 1) 'b') cur
        = wordsAux (List.replicate (n + 1) 'b') ('b' :: cur) from rfl]
    rw [ihn ('b' :: cur)]
    rw [List.reverse_cons, List.append_assoc, List.singleton_append,
      ← List.replicate_succ]

theorem wordsAux_step_nonws (c : Char) (hc : c.isWhitespace = false)
    (l cur : List Char) : wordsAux (c :: l) cur = wordsAux l (c :: cur) := by
  simp only [wordsAux, hc, Bool.false_eq_true, if_false]

theorem wordsAux_step_ws (c : Char) (hc : c.isWhitespace = true)
    (l cur : List Char) (hcur : cur.isEmpty = false) :
    wordsAux (c :: l) cur = cur.reverse :: wordsAux l [] := by
  simp only [wordsAux, hc, if_true, hcur, Bool.false_eq_true, if_false]

/-- C9 counterexample: `_enrich_input("a", {"k": <2100 b's>})` appends the
value first and only then checks the cap, so it returns a 2102-character
string — the claim's "length never exceeds the 2048-character cap" is
false. -/
theorem C9_cap_exceeded :
    2048 < (enrichInput "a" [("k", bigVal)]).length ∧
    (enrichInput "a" [("k", bigVal)]).length = 2102 := by
  have hdata : bigVal.data = List.replicate 2100 'b' := rfl
  have hne : ¬ (bigVal = "") := by
    intro h
    have h2 : bigVal.data = [] := by rw [h]
    rw [hdata] at h2
    have h3 := congrArg List.length h2
    rw [List.length_replicate, List.length_nil] at h3
    omega
  have hci : ciContains "a" bigVal = false := by
    show isSubL (toLowerStr bigVal).data (toLowerStr "a").data = false
    rw [bigVal_toLower, hdata]
    cases hb : isSubL (List.replicate 2100 'b') (toLowerStr "a").data with
    | false => rfl
    | true =>
      have hlen := isSubL_length hb
      rw [List.length_replicate] at hlen
      have hone : (toLowerStr "a").data.length = 1 := by decide
      omega
  have hbl : bigVal.length = 2100 := by
    show bigVal.data.length = 2100
    rw [hdata, List.length_replicate]
  have happlen : ("a" ++ " " ++ bigVal).length = 2102 := by
    rw [String.length_append, String.length_append, hbl,
      show ("a" : String).length = 1 from rfl, show (" " : String).length = 1 from rfl]
  have hcore : enrichCore "a" [("k", bigVal)] "a" [] = "a" ++ " " ++ bigVal := by
    rw [enrichCore_cons, if_neg hne, if_neg (by rw [hci]; simp),
      if_pos (by rw [happlen]; norm_num)]
  have hdata2 : ("a" ++ " " ++ bigVal).data = 'a' :: ' ' :: List.replicate 2100 'b' := by
    rw [String.data_append, String.data_append, hdata]
    rfl
  have hwords : wordsAux ('a' :: ' ' :: List.replicate 2100 'b') []
      = [['a'], List.replicate 2100 'b'] := by
    rw [wordsAux_step_nonws 'a' rfl,
      wordsAux_step_ws ' ' rfl (List.replicate 2100 'b') ['a'] rfl,
      show (2100 : ℕ) = 2099 + 1 from rfl, wordsAux_replicate_b]
    rfl
  have hfinal : enrichInput "a" [("k", bigVal)]
      = String.mk ('a' :: ' ' :: List.replicate 2100 'b') := by
    rw [enrichInput, hcore, normalizeWS, hdata2, hwords]
    rfl
  have hlenf : (String.mk ('a' :: ' ' :: List.replicate 2100 'b')).length = 2102 := by
    show ('a' :: ' ' :: List.replicate 2100 'b').length = 2102
    rw [List.length_cons, List.length_cons, List.length_replicate]
  rw [hfinal, hlenf]
  exact ⟨by norm_num, rfl⟩

end LGDL
